import Mathlib

/-!
Matrix-multiplication benchmark: embedding and verification.

A shallow embedding of the three multipliers (`cpp_naive.cpp`, `cpp_blocked.cpp`,
`cpp/cpp_strassen.cpp`) and of the shared harness `mm_common.hpp`
(`load_matrix_csv`, `compute_stats`).

Scalars are an arbitrary type `α` carrying the operations the code uses; the
theorems about exact arithmetic take `α` to be a (semi)ring or an ordered field.
-/

set_option autoImplicit false

namespace MM

/-! ## Dense matrices -/

/-- A dense matrix as `Eigen::MatrixXd` presents it: a row count, a column count
and the coefficient accessor `M(i, j)`. -/
structure Mat (α : Type) where
  rows : Nat
  cols : Nat
  coeff : Nat → Nat → α

namespace Mat

variable {α : Type}

/-- The assignment `M(i, j) = v`. -/
def set (M : Mat α) (i j : Nat) (v : α) : Mat α :=
  { M with coeff := fun r c => if r = i ∧ c = j then v else M.coeff r c }

/-- The constructor `MatrixXd M(r, c)`: storage is allocated and not initialised;
`junk` stands for whatever the cells hold. -/
def uninit (junk : α) (r c : Nat) : Mat α := ⟨r, c, fun _ _ => junk⟩

/-- The call `C.setZero()`. -/
def setZero [Zero α] (M : Mat α) : Mat α := { M with coeff := fun _ _ => 0 }

/-- The block `M.block(r0, c0, p, q)` copied into a matrix of its own. -/
def block (M : Mat α) (r0 c0 p q : Nat) : Mat α :=
  ⟨p, q, fun i j => M.coeff (r0 + i) (c0 + j)⟩

/-- The block `M.topLeftCorner(p, q)`. -/
def topLeftCorner (M : Mat α) (p q : Nat) : Mat α := M.block 0 0 p q

/-- The block `M.topRightCorner(p, q)`, which starts at column `cols - q`. -/
def topRightCorner (M : Mat α) (p q : Nat) : Mat α := M.block 0 (M.cols - q) p q

/-- The block `M.bottomLeftCorner(p, q)`, which starts at row `rows - p`. -/
def bottomLeftCorner (M : Mat α) (p q : Nat) : Mat α := M.block (M.rows - p) 0 p q

/-- The block `M.bottomRightCorner(p, q)`, which starts at row `rows - p` and column
`cols - q`. -/
def bottomRightCorner (M : Mat α) (p q : Nat) : Mat α :=
  M.block (M.rows - p) (M.cols - q) p q

/-- The assignment `C.block(r0, c0, p, q) = S`. -/
def setBlock (C : Mat α) (r0 c0 p q : Nat) (S : Mat α) : Mat α :=
  { C with coeff := fun i j =>
      if r0 ≤ i ∧ i < r0 + p ∧ c0 ≤ j ∧ j < c0 + q then S.coeff (i - r0) (j - c0)
      else C.coeff i j }

/-- The cell-wise sum `X + Y`. -/
def add [Add α] (X Y : Mat α) : Mat α :=
  ⟨X.rows, X.cols, fun i j => X.coeff i j + Y.coeff i j⟩

/-- The cell-wise difference `X - Y`. -/
def sub [Sub α] (X Y : Mat α) : Mat α :=
  ⟨X.rows, X.cols, fun i j => X.coeff i j - Y.coeff i j⟩

/-- The library product `X * Y`: cell `(i, j)` is the sum over `k < X.cols` of
`X(i, k) * Y(k, j)`. -/
def mul [Semiring α] (X Y : Mat α) : Mat α :=
  ⟨X.rows, Y.cols, fun i j => ∑ k in Finset.range X.cols, X.coeff i k * Y.coeff k j⟩

/-- The matrix `C` with the cells selected by `p` replaced by `f`. -/
def patch (C : Mat α) (p : Nat → Nat → Prop) [∀ r c, Decidable (p r c)]
    (f : Nat → Nat → α) : Mat α :=
  { C with coeff := fun r c => if p r c then f r c else C.coeff r c }

/-- Both dimensions of `M` are `n`. -/
def IsSquare (M : Mat α) (n : Nat) : Prop := M.rows = n ∧ M.cols = n

instance (M : Mat α) (n : Nat) : Decidable (M.IsSquare n) := by
  unfold IsSquare; infer_instance

/-- The matrices `X` and `Y` have the same shape and the same cells within it. -/
def AgreeOn (X Y : Mat α) : Prop :=
  X.rows = Y.rows ∧ X.cols = Y.cols ∧
    ∀ i j, i < X.rows → j < X.cols → X.coeff i j = Y.coeff i j

end Mat

/-! ## Loops -/

section Loops

variable {σ : Type}

/-- The loop `for (int i = lo; i < hi; ++i) s = body(i, s)`. -/
def forLoop (lo hi : Nat) (body : Nat → σ → σ) (s : σ) : σ :=
  (List.range' lo (hi - lo)).foldl (fun acc i => body i acc) s

/-- The loop `for (int i = i0; i < hi; i += step) s = body(i, s)`, run for at most
`fuel` iterations; `none` when the loop is still running once the fuel is spent
(with `step = 0` it never ends). -/
def forStep (step hi : Nat) (body : Nat → σ → Option σ) : Nat → Nat → σ → Option σ
  | 0, i, s => if i < hi then none else some s
  | fuel + 1, i, s =>
    if i < hi then (body i s).bind (forStep step hi body fuel (i + step)) else some s

end Loops

/-! ## The multipliers -/

section Multipliers

variable {α : Type}

/-- The dimension of the benchmark matrices. -/
def N : Nat := 1024

/-- The scalar accumulation `s += A(i, k) * B(k, j)` for `k = lo, ..., hi - 1`,
started from `s0`. -/
def dotLoop [Add α] [Mul α] (A B : Mat α) (i j lo hi : Nat) (s0 : α) : α :=
  forLoop lo hi (fun k s => s + A.coeff i k * B.coeff k j) s0

/-- The naive triple loop of `cpp_naive.cpp` for dimension `n`, run on the
output buffer `C`. -/
def naive [Zero α] [Add α] [Mul α] (n : Nat) (A B C : Mat α) : Mat α :=
  forLoop 0 n (fun i C =>
    forLoop 0 n (fun j C =>
      let s := forLoop 0 n (fun k s => s + A.coeff i k * B.coeff k j) 0
      C.set i j s) C) C

/-- The blocked loop nest of `cpp_blocked.cpp` for dimension `n` and block size
`bs`, run on the output buffer `C`; each of the three tiling loops gets `fuel`
iterations. -/
def blocked [Add α] [Mul α] (fuel n bs : Nat) (A B C : Mat α) : Option (Mat α) :=
  forStep bs n (fun ii C =>
    forStep bs n (fun kk C =>
      forStep bs n (fun jj C =>
        let i_max := min (ii + bs) n
        let k_max := min (kk + bs) n
        let j_max := min (jj + bs) n
        some (forLoop ii i_max (fun i C =>
          forLoop kk k_max (fun k C =>
            let aik := A.coeff i k
            forLoop jj j_max (fun j C =>
              C.set i j (C.coeff i j + aik * B.coeff k j)) C) C) C)) fuel 0 C) fuel 0 C)
    fuel 0 C

/-- The block size `cpp_blocked.cpp` uses. -/
def BLOCK_SIZE : Nat := 64

/-- At or below this dimension `strassen` uses the library product. -/
def LEAF_SIZE : Nat := 64

/-- The function `strassen` of `cpp_strassen.cpp`; `junk` is the content of
freshly allocated, not yet assigned cells of the result. -/
def strassen [Ring α] (junk : α) (A B : Mat α) : Mat α :=
  if _h : A.rows ≤ LEAF_SIZE then
    A.mul B
  else
    let n := A.rows
    let mid := n / 2
    let A11 := A.topLeftCorner mid mid
    let A12 := A.topRightCorner mid mid
    let A21 := A.bottomLeftCorner mid mid
    let A22 := A.bottomRightCorner mid mid
    let B11 := B.topLeftCorner mid mid
    let B12 := B.topRightCorner mid mid
    let B21 := B.bottomLeftCorner mid mid
    let B22 := B.bottomRightCorner mid mid
    let M1 := strassen junk (A11.add A22) (B11.add B22)
    let M2 := strassen junk (A21.add A22) B11
    let M3 := strassen junk A11 (B12.sub B22)
    let M4 := strassen junk A22 (B21.sub B11)
    let M5 := strassen junk (A11.add A12) B22
    let M6 := strassen junk (A21.sub A11) (B11.add B12)
    let M7 := strassen junk (A12.sub A22) (B21.add B22)
    let C11 := ((M1.add M4).sub M5).add M7
    let C12 := M3.add M5
    let C21 := M2.add M4
    let C22 := ((M1.sub M2).add M3).add M6
    let C := Mat.uninit junk n n
    let C := C.setBlock 0 0 mid mid C11
    let C := C.setBlock 0 (C.cols - mid) mid mid C12
    let C := C.setBlock (C.rows - mid) 0 mid mid C21
    let C := C.setBlock (C.rows - mid) (C.cols - mid) mid mid C22
    C
termination_by A.rows
decreasing_by
  all_goals simp only [Mat.add, Mat.sub, Mat.topLeftCorner, Mat.topRightCorner,
    Mat.bottomLeftCorner, Mat.bottomRightCorner, Mat.block, LEAF_SIZE] at *
  all_goals omega

/-- The recursive branch of `strassen` (lines 15 to 47 of `cpp_strassen.cpp`) with
the function called for the seven products left open as `rec`. -/
def strassenStep [Ring α] (junk : α) (rec : Mat α → Mat α → Mat α) (A B : Mat α) : Mat α :=
  let n := A.rows
  let mid := n / 2
  let A11 := A.topLeftCorner mid mid
  let A12 := A.topRightCorner mid mid
  let A21 := A.bottomLeftCorner mid mid
  let A22 := A.bottomRightCorner mid mid
  let B11 := B.topLeftCorner mid mid
  let B12 := B.topRightCorner mid mid
  let B21 := B.bottomLeftCorner mid mid
  let B22 := B.bottomRightCorner mid mid
  let M1 := rec (A11.add A22) (B11.add B22)
  let M2 := rec (A21.add A22) B11
  let M3 := rec A11 (B12.sub B22)
  let M4 := rec A22 (B21.sub B11)
  let M5 := rec (A11.add A12) B22
  let M6 := rec (A21.sub A11) (B11.add B12)
  let M7 := rec (A12.sub A22) (B21.add B22)
  let C11 := ((M1.add M4).sub M5).add M7
  let C12 := M3.add M5
  let C21 := M2.add M4
  let C22 := ((M1.sub M2).add M3).add M6
  let C := Mat.uninit junk n n
  let C := C.setBlock 0 0 mid mid C11
  let C := C.setBlock 0 (C.cols - mid) mid mid C12
  let C := C.setBlock (C.rows - mid) 0 mid mid C21
  let C := C.setBlock (C.rows - mid) (C.cols - mid) mid mid C22
  C

/-- A dimension that stays even at every recursion level down to the leaf
threshold: `n ≤ LEAF_SIZE`, or `n` even and `n / 2` again of this kind. -/
inductive EvenToLeaf : Nat → Prop
  | leaf (n : Nat) : n ≤ LEAF_SIZE → EvenToLeaf n
  | split (n : Nat) : n % 2 = 0 → EvenToLeaf (n / 2) → EvenToLeaf n

end Multipliers

/-! ## The iteration order of the blocked nest -/

section Order

variable {σ : Type}

/-- The loop nest of `cpp_blocked.cpp` with its innermost statement left open: `body
i k j` stands for what is done at the index triple `(i, k, j)`. -/
def blockedNest (fuel n bs : Nat) (body : Nat → Nat → Nat → σ → σ) (s : σ) : Option σ :=
  forStep bs n (fun ii s =>
    forStep bs n (fun kk s =>
      forStep bs n (fun jj s =>
        let i_max := min (ii + bs) n
        let k_max := min (kk + bs) n
        let j_max := min (jj + bs) n
        some (forLoop ii i_max (fun i s =>
          forLoop kk k_max (fun k s =>
            forLoop jj j_max (fun j s => body i k j s) s) s) s)) fuel 0 s) fuel 0 s)
    fuel 0 s

/-- The index triples `(i, k, j)` in the order in which the blocked nest reaches its
innermost statement. -/
def blockedVisits (fuel n bs : Nat) : Option (List (Nat × Nat × Nat)) :=
  blockedNest fuel n bs (fun i k j visited => visited ++ [(i, k, j)]) []

/-- The `k` indices, in order, of the visits that accumulate into cell `(i, j)`. -/
def kSequence (visits : List (Nat × Nat × Nat)) (i j : Nat) : List Nat :=
  (visits.filter (fun t => t.1 = i ∧ t.2.2 = j)).map (fun t => t.2.1)

/-- Scalars that keep a log instead of a number: a sum is the log of the left
operand followed by the log of the right one, a product is the log of its left
factor. With `A(i, k)` the one-entry log `[k]`, a cell of the output holds the `k`
indices in the order in which the code accumulated them. -/
structure KLog where
  ks : List Nat

instance : Zero KLog := ⟨⟨[]⟩⟩

instance : Add KLog := ⟨fun a b => ⟨a.ks ++ b.ks⟩⟩

instance : Mul KLog := ⟨fun a _ => a⟩

/-- The left operand whose cell `(i, k)` logs `k`. -/
def logA (n : Nat) : Mat KLog := ⟨n, n, fun _ k => ⟨[k]⟩⟩

/-- A right operand with empty logs. -/
def logB (n : Nat) : Mat KLog := ⟨n, n, fun _ _ => ⟨[]⟩⟩

/-- An addition on the integers that is not associative: `x ⊕ y = 2 * x + y`. -/
structure Skew where
  val : Int

instance : Zero Skew := ⟨⟨0⟩⟩

instance : Add Skew := ⟨fun a b => ⟨2 * a.val + b.val⟩⟩

instance : Mul Skew := ⟨fun a b => ⟨a.val * b.val⟩⟩

end Order

/-! ## Summary statistics (`compute_stats`) -/

section Statistics

variable {α : Type}

/-- The record `Stats`; a field is `none` when the code stores a not-a-number. -/
structure Stats (α : Type) where
  mean : Option α
  sd : Option α
  min : Option α
  max : Option α

/-- The value `*std::min_element(first, last)` on the non-empty range `x :: xs`: the
candidate is replaced whenever a later element is smaller. -/
def min_element [LT α] [DecidableRel (fun a b : α => a < b)] (x : α) (xs : List α) : α :=
  xs.foldl (fun smallest y => if y < smallest then y else smallest) x

/-- The value `*std::max_element(first, last)` on the non-empty range `x :: xs`: the
candidate is replaced whenever it is smaller than a later element. -/
def max_element [LT α] [DecidableRel (fun a b : α => a < b)] (x : α) (xs : List α) : α :=
  xs.foldl (fun largest y => if largest < y then y else largest) x

/-- The call `std::sqrt(x)`: not-a-number on a negative argument, the root `sqrt x`
otherwise. -/
def sqrt_or_nan [LinearOrderedField α] (sqrt : α → α) (x : α) : Option α :=
  if x < 0 then none else some (sqrt x)

/-- The function `compute_stats` of `mm_common.hpp` on exact scalars; `sqrt` is the
root function on non-negative arguments. -/
def compute_stats [LinearOrderedField α] (sqrt : α → α) (v : List α) : Stats α :=
  match v with
  | [] => ⟨none, none, none, none⟩
  | x :: xs =>
    let size := (x :: xs).length
    let sum := (x :: xs).foldl (fun acc y => acc + y) 0
    let mean := sum / (size : α)
    let mn := min_element x xs
    let mx := max_element x xs
    let sd :=
      if size > 1 then
        let accum := (x :: xs).foldl (fun accum y =>
          let diff := y - mean
          accum + diff * diff) 0
        sqrt_or_nan sqrt (accum / ((size - 1 : Nat) : α))
      else none
    ⟨some mean, sd, some mn, some mx⟩

end Statistics

/-! ## The matrix loader (`load_matrix_csv`) -/

section Loader

variable {α : Type}

/-- The exceptions `load_matrix_csv` can raise: the file cannot be opened, `std::stod`
rejects a field, the row count is not `n`. -/
inductive LoadError
  | cannotOpen
  | invalidArgument
  | rowCount
  deriving DecidableEq, Repr

/-- The line feed, the delimiter of `std::getline(in, line)`. -/
def newline : Char := Char.ofNat 10

/-- The comma, the delimiter of `std::getline(ss, cell, ',')`. -/
def comma : Char := Char.ofNat 44

/-- One call `std::getline(stream, line, d)` on a stream holding `s`: `none` when
nothing is left to extract, otherwise the text up to the first `d` (or to the end)
and what is left after that `d`. -/
def getline (d : Char) : List Char → Option (List Char × List Char)
  | [] => none
  | c :: cs =>
    if c = d then some ([], cs)
    else
      match getline d cs with
      | none => some ([c], [])
      | some (l, rest) => some (c :: l, rest)

/-- The texts successive calls of `std::getline(stream, line, d)` extract from a
stream holding `s`, until a call fails. -/
def getlines (d : Char) : List Char → List (List Char)
  | [] => []
  | c :: cs =>
    if c = d then [] :: getlines d cs
    else
      match getlines d cs with
      | [] => [[c]]
      | l :: ls => (c :: l) :: ls

/-- The inner loop `while (std::getline(ss, cell, ',') && j < n)` of
`load_matrix_csv` on row `i`: `cells` are the fields still to be extracted from the
line. -/
def readCells (stod : List Char → Option α) (n i : Nat) :
    List (List Char) → Nat → Mat (Option α) → Except LoadError (Mat (Option α))
  | [], _, M => .ok M
  | cell :: rest, j, M =>
    if j < n then
      match stod cell with
      | none => .error .invalidArgument
      | some x => readCells stod n i rest (j + 1) (M.set i j (some x))
    else .ok M

/-- The outer loop `while (std::getline(in, line) && i < n)` of `load_matrix_csv`:
`lines` are the lines still to be extracted from the file; the result carries the
final value of `i`. -/
def readRows (stod : List Char → Option α) (n : Nat) :
    List (List Char) → Nat → Mat (Option α) → Except LoadError (Nat × Mat (Option α))
  | [], i, M => .ok (i, M)
  | line :: rest, i, M =>
    if i < n then
      match readCells stod n i (getlines comma line) 0 M with
      | .error e => .error e
      | .ok M' => readRows stod n rest (i + 1) M'
    else .ok (i, M)

/-- The function `load_matrix_csv` of `mm_common.hpp`. The file is `none` when it
cannot be opened and its content otherwise; `stod` is `std::stod`, `none` when it
throws. A cell of the result is `none` as long as nothing was assigned to it. -/
def load_matrix_csv (stod : List Char → Option α) (file : Option (List Char)) (n : Nat) :
    Except LoadError (Mat (Option α)) :=
  match file with
  | none => .error .cannotOpen
  | some content =>
    match readRows stod n (getlines newline content) 0 (Mat.uninit none n n) with
    | .error e => .error e
    | .ok (i, M) => if i ≠ n then .error .rowCount else .ok M

/-- The value of a run of decimal digits, most significant first, continuing `acc`. -/
def digitsValue : List Char → Nat → Nat
  | [], acc => acc
  | c :: cs, acc => if c.isDigit then digitsValue cs (10 * acc + (c.toNat - 48)) else acc

/-- A number parser for unsigned decimal integers, used to run the loader on
concrete files: the value of the leading digits, `none` when the text does not
start with a digit. -/
def stodNat : List Char → Option Nat
  | [] => none
  | c :: cs => if c.isDigit then some (digitsValue (c :: cs) 0) else none

/-- The text made of the pieces `ps`, each followed by the delimiter `d`. -/
def terminated (d : Char) : List (List Char) → List Char
  | [] => []
  | p :: ps => p ++ d :: terminated d ps

/-- The fields of a line the loader can reach: the first `n` ones. -/
def cutFields (n : Nat) (line : List Char) : List (List Char) :=
  (getlines comma line).take n

/-- The content cut down to its first `n` lines and to the first `n` fields of each
of them. -/
def cutDown (n : Nat) (content : List Char) : List Char :=
  terminated newline
    (((getlines newline content).take n).map (fun line => terminated comma (cutFields n line)))

end Loader

/-! ## The results logger (`append_results_csv`) -/

section Logger

/-- The files as the programs see them. `read path` is the content of the file when
`std::ifstream` can open it and `none` when it cannot, which is the code's test for
a file that does not exist; `writable path` tells whether `std::ofstream` can open the
path for appending, creating an empty file where there is none. -/
structure FileSys where
  read : String → Option (List Char)
  writable : String → Bool

/-- The file system once the file at `path` holds `content`. -/
def FileSys.write (fs : FileSys) (path : String) (content : List Char) : FileSys :=
  { fs with read := fun p => if p = path then some content else fs.read p }

/-- One result row, a `std::array<std::string, 5>`: the fields are `r[0]`, ..., `r[4]`
in this order. -/
structure ResultRow where
  language : String
  algorithm : String
  n : String
  rep : String
  time_s : String

/-- The header line `append_results_csv` writes into a new file. -/
def csvHeader : List Char := "language,algorithm,n,rep,time_s\n".data

/-- The line written for one row:
`out << r[0] << "," << r[1] << "," << r[2] << "," << r[3] << "," << r[4] << "\n"`. -/
def rowLine (r : ResultRow) : List Char :=
  (r.language ++ "," ++ r.algorithm ++ "," ++ r.n ++ "," ++ r.rep ++ "," ++ r.time_s
    ++ "\n").data

/-- The lines of a list of rows, one after the other. -/
def rowLines : List ResultRow → List Char
  | [] => []
  | r :: rs => rowLine r ++ rowLines rs

/-- The exception of `append_results_csv`: the file cannot be opened for writing. -/
inductive LogError
  | cannotOpen
  deriving DecidableEq, Repr

/-- The function `append_results_csv` of `mm_common.hpp`: its effect on the files. -/
def append_results_csv (fs : FileSys) (csv_path : String) (rows : List ResultRow) :
    Except LogError FileSys :=
  let file_exists := (fs.read csv_path).isSome
  if fs.writable csv_path = false then .error .cannotOpen
  else
    let out := (fs.read csv_path).getD []
    let out := if file_exists = false then out ++ csvHeader else out
    let out := rows.foldl (fun out r => out ++ rowLine r) out
    .ok (fs.write csv_path out)

end Logger

/-! ## The benchmark driver (`parse_args`, `main`) -/

section Driver

variable {α : Type}

/-- The language tag of the result rows. -/
def LANGUAGE : String := "C++"

/-- The function `parse_args` of `mm_common.hpp` on the argument vector `argv`
(`argc` is its length): the repetition count and the path of the results file.
`stoi` is `std::stoi`, `none` when it throws; the result is `none` when that
exception leaves `parse_args`. -/
def parse_args (stoi : String → Option Int) (argv : List String) : Option (Int × String) :=
  let reps : Int := 5
  let csv : String := "results_cpp.csv"
  match argv with
  | _ :: a1 :: rest =>
    match stoi a1 with
    | none => none
    | some r =>
      match rest with
      | a2 :: _ => some (r, a2)
      | [] => some (r, csv)
  | _ => some (reps, csv)

/-- What the `try` block of `main` can catch: an exception of `load_matrix_csv`, the
`std::length_error` of `times.reserve(reps)` for a negative `reps`, an exception of
`append_results_csv`. -/
inductive RunError
  | load (e : LoadError)
  | reserve
  | log (e : LogError)
  deriving DecidableEq, Repr

/-- How a run ends: `main` returns `code`, or an exception leaves `main` and
`std::terminate` ends the process. -/
inductive ExitStatus
  | exited (code : Int)
  | terminated
  deriving DecidableEq, Repr

/-- What a run of a driver leaves behind: how it ended, the lines `Error: ...`
written to `std::cerr` (each given by the exception caught), the files, the calls of
`append_results_csv` (path and batch of rows), the arguments of the calls of
`compute_stats`, and the summary printed. -/
structure Run (α : Type) where
  status : ExitStatus
  cerr : List RunError
  fs : FileSys
  logged : List (String × List ResultRow)
  statsInput : List (List α)
  summary : Option (Stats α)

/-- The repetition loop `for (int rep = 1; rep <= reps; ++rep)` of `main`: the times
and the rows collected. The product computed in a repetition is discarded by the
code; what is kept of repetition `rep` is its measured time `elapsed rep`. (The
counter is an unbounded integer here: `reps` below `INT_MAX`.) -/
def repetitions (to_string : α → String) (algorithm : String) (elapsed : Nat → α)
    (reps : Int) : List α × List ResultRow :=
  forLoop 1 (reps.toNat + 1) (fun rep (state : List α × List ResultRow) =>
    let t := elapsed rep
    let times := state.1 ++ [t]
    let r : ResultRow := ⟨LANGUAGE, algorithm, toString N, toString rep, to_string t⟩
    (times, state.2 ++ [r])) ([], [])

/-- The function `main` of the three drivers, which differ in the tag `algorithm`
and in the multiplication they time. `stod`, `stoi` and `to_string` are the library
functions of these names, `sqrt` the root used by `compute_stats`, `elapsed rep` the
time measured in repetition `rep`. -/
def main [LinearOrderedField α] (stod : List Char → Option α) (stoi : String → Option Int)
    (to_string : α → String) (sqrt : α → α) (algorithm : String) (elapsed : Nat → α)
    (argv : List String) (fs : FileSys) : Run α :=
  match parse_args stoi argv with
  | none => ⟨.terminated, [], fs, [], [], none⟩
  | some (reps, csv_path) =>
    match load_matrix_csv stod (fs.read "A_1024.csv") N with
    | .error e => ⟨.exited 1, [.load e], fs, [], [], none⟩
    | .ok _ =>
      match load_matrix_csv stod (fs.read "B_1024.csv") N with
      | .error e => ⟨.exited 1, [.load e], fs, [], [], none⟩
      | .ok _ =>
        if reps < 0 then ⟨.exited 1, [.reserve], fs, [], [], none⟩
        else
          let run := repetitions to_string algorithm elapsed reps
          let times := run.1
          let rows := run.2
          match append_results_csv fs csv_path rows with
          | .error e => ⟨.exited 1, [.log e], fs, [(csv_path, rows)], [], none⟩
          | .ok fs' =>
            let s := compute_stats sqrt times
            ⟨.exited 0, [], fs', [(csv_path, rows)], [times], some s⟩

/-- A parser for signed decimal integers in the range of `int`, used to run the
drivers on concrete arguments: `none` when the text does not start with digits
(after an optional minus sign) or the value is out of range. -/
def stoiDec (s : String) : Option Int :=
  match s.data with
  | [] => none
  | c :: cs =>
    if c = Char.ofNat 45 then
      (stodNat cs).bind (fun v => if v ≤ 2147483648 then some (-(v : Int)) else none)
    else
      (stodNat (c :: cs)).bind (fun v => if v ≤ 2147483647 then some (v : Int) else none)

end Driver

/-! ## Matrices used in the concrete evaluations -/

section Examples


/-- The matrix `[[1, 2], [3, 4]]`. -/
def M22 : Mat Int :=
  ⟨2, 2, fun i j =>
    match i, j with
    | 0, 0 => 1
    | 0, 1 => 2
    | 1, 0 => 3
    | 1, 1 => 4
    | _, _ => 0⟩

/-- The `n × n` matrix that is `0` except for a `1` in cell `(r, c)`. -/
def unitAt (n r c : Nat) : Mat Int := ⟨n, n, fun i j => if i = r ∧ j = c then 1 else 0⟩

/-- The `n × n` matrix over the skew scalars with `1 + i + 2 * j` in cell `(i, j)`. -/
def skewMat (n : Nat) : Mat Skew := ⟨n, n, fun i j => ⟨1 + i + 2 * j⟩⟩

/-- The text of an `n × n` matrix file whose fields are all `1`. -/
def onesFile (n : Nat) : List Char :=
  terminated newline (List.replicate n (terminated comma (List.replicate n "1".data)))

/-- A file system with the two input files of the benchmark, all fields `1`, and
no results file yet; every path can be written. -/
def benchFiles : FileSys :=
  { read := fun p => if p = "A_1024.csv" ∨ p = "B_1024.csv" then some (onesFile N) else none
    writable := fun _ => true }

/-- The parser `stodNat` with its value taken as a rational number. -/
def stodRat (s : List Char) : Option ℚ := (stodNat s).map (fun v => (v : ℚ))

/-- A run of the naive driver with two repetitions on `benchFiles`; repetition `rep`
takes `rep / 10` seconds and every time is printed as `0.100000`. -/
def benchRun : Run ℚ :=
  main stodRat stoiDec (fun _ => "0.100000") (fun x => x) "naive" (fun rep => (rep : ℚ) / 10)
    ["cpp_naive", "2"] benchFiles

end Examples

end MM

/-! ## Loop lemmas -/

namespace MM

section LoopLemmas

variable {σ : Type}

theorem forLoop_of_le (lo hi : Nat) (body : Nat → σ → σ) (s : σ) (h : hi ≤ lo) :
    forLoop lo hi body s = s := by
  unfold forLoop
  rw [Nat.sub_eq_zero_of_le h]
  rfl

theorem forLoop_succ (lo hi : Nat) (body : Nat → σ → σ) (s : σ) (h : lo ≤ hi) :
    forLoop lo (hi + 1) body s = body hi (forLoop lo hi body s) := by
  unfold forLoop
  have e : hi + 1 - lo = (hi - lo) + 1 := by omega
  rw [e, List.range'_concat, List.foldl_append]
  have e2 : lo + (hi - lo) = hi := by omega
  simp [e2]

/-- A loop invariant carried from `lo` to `hi`. -/
theorem forLoop_inv (Inv : Nat → σ → Prop) (lo hi : Nat) (body : Nat → σ → σ) (s : σ)
    (hle : lo ≤ hi) (h0 : Inv lo s)
    (hstep : ∀ i t, lo ≤ i → i < hi → Inv i t → Inv (i + 1) (body i t)) :
    Inv hi (forLoop lo hi body s) := by
  induction hi with
  | zero =>
    have : lo = 0 := by omega
    subst this
    simpa [forLoop_of_le] using h0
  | succ m ih =>
    by_cases hm : lo ≤ m
    · rw [forLoop_succ lo m body s hm]
      apply hstep m _ hm (by omega)
      exact ih hm (fun i t h1 h2 h3 => hstep i t h1 (by omega) h3)
    · have : lo = m + 1 := by omega
      subst this
      simpa [forLoop_of_le] using h0

/-- Two consecutive index ranges make one loop. -/
theorem forLoop_split (lo mid hi : Nat) (body : Nat → σ → σ) (s : σ)
    (h1 : lo ≤ mid) (h2 : mid ≤ hi) :
    forLoop mid hi body (forLoop lo mid body s) = forLoop lo hi body s := by
  induction hi with
  | zero =>
    have : mid = 0 := by omega
    subst this
    simp [forLoop_of_le]
  | succ m ih =>
    by_cases hm : mid ≤ m
    · rw [forLoop_succ mid m body _ hm, forLoop_succ lo m body s (by omega), ih hm]
    · have : mid = m + 1 := by omega
      subst this
      simp [forLoop_of_le]

/-- A stepped loop with a positive step ends within `hi - i` iterations, and an
invariant indexed by the position reached (capped at `hi`) is carried to `hi`. -/
theorem forStep_inv (Inv : Nat → σ → Prop) (step hi : Nat) (body : Nat → σ → Option σ)
    (hstep : 0 < step)
    (hbody : ∀ i t, i < hi → Inv i t → ∃ t', body i t = some t' ∧ Inv (min (i + step) hi) t') :
    ∀ (fuel i : Nat) (s : σ), hi - i ≤ fuel → Inv (min i hi) s →
      ∃ s', forStep step hi body fuel i s = some s' ∧ Inv hi s' := by
  intro fuel
  induction fuel with
  | zero =>
    intro i s hf h0
    have hi' : ¬ i < hi := by omega
    have e : min i hi = hi := by omega
    rw [e] at h0
    exact ⟨s, by simp [forStep, hi'], h0⟩
  | succ f ih =>
    intro i s hf h0
    by_cases hlt : i < hi
    · have e : min i hi = i := by omega
      rw [e] at h0
      obtain ⟨t', ht', hInv⟩ := hbody i s hlt h0
      obtain ⟨s', hs', hI⟩ := ih (i + step) t' (by omega) hInv
      exact ⟨s', by simp [forStep, hlt, ht', hs'], hI⟩
    · have e : min i hi = hi := by omega
      rw [e] at h0
      exact ⟨s, by simp [forStep, hlt], h0⟩

/-- A stepped loop whose state after reaching position `p` is `F p`. -/
theorem forStep_eq (F : Nat → σ) (step hi : Nat) (body : Nat → σ → Option σ)
    (hstep : 0 < step)
    (hbody : ∀ i, i < hi → body i (F i) = some (F (min (i + step) hi)))
    (fuel : Nat) (hf : hi ≤ fuel) (s : σ) (h0 : F 0 = s) :
    forStep step hi body fuel 0 s = some (F hi) := by
  obtain ⟨s', hs', hI⟩ := forStep_inv (fun p t => t = F p) step hi body hstep
    (fun i t hi' ht => ⟨_, by rw [ht]; exact hbody i hi', rfl⟩) fuel 0 s (by omega)
    (by simp [h0])
  rw [hs', hI]

end LoopLemmas

end MM

/-! ## The naive and the blocked loop nests, cell by cell -/

namespace MM

section CellLemmas

variable {α : Type}

theorem Mat.ext_cells {X Y : Mat α} (hr : X.rows = Y.rows) (hc : X.cols = Y.cols)
    (h : ∀ r c, X.coeff r c = Y.coeff r c) : X = Y := by
  cases X; cases Y
  simp only [Mat.mk.injEq]
  exact ⟨hr, hc, funext fun r => funext fun c => h r c⟩

theorem dotLoop_split [Add α] [Mul α] (A B : Mat α) (i j lo mid hi : Nat) (s : α)
    (h1 : lo ≤ mid) (h2 : mid ≤ hi) :
    dotLoop A B i j mid hi (dotLoop A B i j lo mid s) = dotLoop A B i j lo hi s :=
  forLoop_split lo mid hi _ s h1 h2

theorem dotLoop_of_le [Add α] [Mul α] (A B : Mat α) (i j lo hi : Nat) (s : α)
    (h : hi ≤ lo) : dotLoop A B i j lo hi s = s :=
  forLoop_of_le lo hi _ s h

theorem dotLoop_succ [Add α] [Mul α] (A B : Mat α) (i j lo hi : Nat) (s : α)
    (h : lo ≤ hi) :
    dotLoop A B i j lo (hi + 1) s = dotLoop A B i j lo hi s + A.coeff i hi * B.coeff hi j :=
  forLoop_succ lo hi _ s h

/-- In a semiring the accumulation loop started from `0` is the finite sum. -/
theorem dotLoop_eq_sum [Semiring α] (A B : Mat α) (i j n : Nat) :
    dotLoop A B i j 0 n 0 = ∑ k in Finset.range n, A.coeff i k * B.coeff k j := by
  induction n with
  | zero => simp [dotLoop_of_le]
  | succ m ih => rw [dotLoop_succ _ _ _ _ _ _ _ (Nat.zero_le m), ih, Finset.sum_range_succ]

/-- In a semiring the accumulation loop started from `s` adds the finite sum to `s`. -/
theorem dotLoop_eq_add_sum [Semiring α] (A B : Mat α) (i j n : Nat) (s : α) :
    dotLoop A B i j 0 n s = s + ∑ k in Finset.range n, A.coeff i k * B.coeff k j := by
  induction n with
  | zero => simp [dotLoop_of_le]
  | succ m ih =>
    rw [dotLoop_succ _ _ _ _ _ _ _ (Nat.zero_le m), ih, Finset.sum_range_succ, add_assoc]

/-- The loop over `j` of the naive nest: row `i` is overwritten up to column `q`. -/
theorem naive_row (f : Nat → α) (i q : Nat) (C : Mat α) :
    forLoop 0 q (fun j C => C.set i j (f j)) C
      = C.patch (fun r c => r = i ∧ c < q) (fun _ c => f c) := by
  refine forLoop_inv (fun p X => X = C.patch (fun r c => r = i ∧ c < p) (fun _ c => f c))
    0 q _ C (Nat.zero_le q) ?_ ?_
  · exact Mat.ext_cells rfl rfl (fun r c => by simp [Mat.patch])
  · intro p X _ _ hX
    subst hX
    refine Mat.ext_cells rfl rfl (fun r c => ?_)
    simp only [Mat.set, Mat.patch]
    by_cases h1 : r = i ∧ c = p
    · obtain ⟨rfl, rfl⟩ := h1; simp
    · have : (r = i ∧ c < p + 1) ↔ (r = i ∧ c < p) := by
        constructor
        · rintro ⟨a, b⟩; exact ⟨a, by by_contra hc; exact h1 ⟨a, by omega⟩⟩
        · rintro ⟨a, b⟩; exact ⟨a, by omega⟩
      simp [h1, this]

/-- The naive triple loop overwrites every cell of the leading `n × n` block with
the accumulated dot product and leaves the other cells alone. -/
theorem naive_eq_patch [Zero α] [Add α] [Mul α] (n : Nat) (A B C : Mat α) :
    naive n A B C
      = C.patch (fun r c => r < n ∧ c < n) (fun r c => dotLoop A B r c 0 n 0) := by
  unfold naive
  refine forLoop_inv
    (fun p X => X = C.patch (fun r c => r < p ∧ c < n) (fun r c => dotLoop A B r c 0 n 0))
    0 n _ C (Nat.zero_le n) ?_ ?_
  · exact Mat.ext_cells rfl rfl (fun r c => by simp [Mat.patch])
  · intro p X _ _ hX
    subst hX
    have := naive_row (fun j => dotLoop A B p j 0 n 0) p n
      (C.patch (fun r c => r < p ∧ c < n) (fun r c => dotLoop A B r c 0 n 0))
    simp only [dotLoop] at this ⊢
    rw [this]
    refine Mat.ext_cells rfl rfl (fun r c => ?_)
    simp only [Mat.patch]
    by_cases h1 : r = p
    · subst h1
      by_cases h2 : c < n <;> simp [h2]
    · have : (r < p + 1 ∧ c < n) ↔ (r < p ∧ c < n) := by
        constructor
        · rintro ⟨a, b⟩; exact ⟨by omega, b⟩
        · rintro ⟨a, b⟩; exact ⟨by omega, b⟩
      simp [h1, this]

end CellLemmas

end MM

/-! ## The blocked nest, loop by loop -/

namespace MM

section BlockedLemmas

variable {α : Type} [Add α] [Mul α]

/-- The innermost loop over `j`: one product is added to each cell of row `i` in
the column range. -/
theorem blocked_jloop (B : Mat α) (aik : α) (i k jj jm : Nat) (C : Mat α) :
    forLoop jj jm (fun j C => C.set i j (C.coeff i j + aik * B.coeff k j)) C
      = C.patch (fun r c => r = i ∧ jj ≤ c ∧ c < jm)
          (fun r c => C.coeff r c + aik * B.coeff k c) := by
  by_cases hle : jj ≤ jm
  · refine forLoop_inv (fun p X => X = C.patch (fun r c => r = i ∧ jj ≤ c ∧ c < p)
        (fun r c => C.coeff r c + aik * B.coeff k c)) jj jm _ C hle ?_ ?_
    · refine Mat.ext_cells rfl rfl (fun r c => ?_)
      have : ¬ (r = i ∧ jj ≤ c ∧ c < jj) := by omega
      simp [Mat.patch, this]
    · intro p X h1 _ hX
      subst hX
      refine Mat.ext_cells rfl rfl (fun r c => ?_)
      simp only [Mat.set, Mat.patch]
      by_cases h2 : r = i ∧ c = p
      · obtain ⟨rfl, rfl⟩ := h2
        have : ¬ (r = r ∧ jj ≤ c ∧ c < c) := by omega
        simp [this, h1]
      · have : (r = i ∧ jj ≤ c ∧ c < p + 1) ↔ (r = i ∧ jj ≤ c ∧ c < p) := by
          constructor
          · rintro ⟨a, b, d⟩
            exact ⟨a, b, by by_contra hc; exact h2 ⟨a, by omega⟩⟩
          · rintro ⟨a, b, d⟩; exact ⟨a, b, by omega⟩
        simp [h2, this]
  · rw [forLoop_of_le _ _ _ _ (by omega)]
    refine Mat.ext_cells rfl rfl (fun r c => ?_)
    have : ¬ (r = i ∧ jj ≤ c ∧ c < jm) := by omega
    simp [Mat.patch, this]

/-- The loop over `k` inside one tile: each cell of row `i` in the column range
accumulates the products for `k = kk, ..., km - 1` in this order. -/
theorem blocked_kloop (A B : Mat α) (i kk km jj jm : Nat) (C : Mat α) :
    forLoop kk km (fun k C =>
        let aik := A.coeff i k
        forLoop jj jm (fun j C => C.set i j (C.coeff i j + aik * B.coeff k j)) C) C
      = C.patch (fun r c => r = i ∧ jj ≤ c ∧ c < jm)
          (fun r c => dotLoop A B r c kk km (C.coeff r c)) := by
  by_cases hle : kk ≤ km
  · refine forLoop_inv (fun p X => X = C.patch (fun r c => r = i ∧ jj ≤ c ∧ c < jm)
        (fun r c => dotLoop A B r c kk p (C.coeff r c))) kk km _ C hle ?_ ?_
    · refine Mat.ext_cells rfl rfl (fun r c => ?_)
      simp [Mat.patch, dotLoop_of_le]
    · intro p X h1 _ hX
      subst hX
      simp only []
      rw [blocked_jloop]
      refine Mat.ext_cells rfl rfl (fun r c => ?_)
      simp only [Mat.patch]
      by_cases h2 : r = i ∧ jj ≤ c ∧ c < jm
      · obtain ⟨rfl, h3, h4⟩ := h2
        simp [h3, h4, dotLoop_succ _ _ _ _ _ _ _ h1]
      · simp [h2]
  · rw [forLoop_of_le _ _ _ _ (by omega)]
    refine Mat.ext_cells rfl rfl (fun r c => ?_)
    simp [Mat.patch, dotLoop_of_le _ _ _ _ _ _ _ (show km ≤ kk by omega)]

/-- The loop over `i` inside one tile. -/
theorem blocked_iloop (A B : Mat α) (ii im kk km jj jm : Nat) (C : Mat α) :
    forLoop ii im (fun i C =>
        forLoop kk km (fun k C =>
          let aik := A.coeff i k
          forLoop jj jm (fun j C => C.set i j (C.coeff i j + aik * B.coeff k j)) C) C) C
      = C.patch (fun r c => (ii ≤ r ∧ r < im) ∧ jj ≤ c ∧ c < jm)
          (fun r c => dotLoop A B r c kk km (C.coeff r c)) := by
  by_cases hle : ii ≤ im
  · refine forLoop_inv (fun p X => X = C.patch (fun r c => (ii ≤ r ∧ r < p) ∧ jj ≤ c ∧ c < jm)
        (fun r c => dotLoop A B r c kk km (C.coeff r c))) ii im _ C hle ?_ ?_
    · refine Mat.ext_cells rfl rfl (fun r c => ?_)
      have : ¬ ((ii ≤ r ∧ r < ii) ∧ jj ≤ c ∧ c < jm) := by omega
      simp [Mat.patch, this]
    · intro p X h1 _ hX
      subst hX
      rw [blocked_kloop]
      refine Mat.ext_cells rfl rfl (fun r c => ?_)
      simp only [Mat.patch]
      by_cases h2 : r = p
      · subst h2
        have h3 : ¬ ((ii ≤ r ∧ r < r) ∧ jj ≤ c ∧ c < jm) := by omega
        by_cases h4 : jj ≤ c ∧ c < jm
        · have h5 : (ii ≤ r ∧ r < r + 1) ∧ jj ≤ c ∧ c < jm := ⟨⟨h1, by omega⟩, h4⟩
          simp [h3, h4, h5]
        · have h5 : ¬ ((ii ≤ r ∧ r < r + 1) ∧ jj ≤ c ∧ c < jm) := fun h => h4 h.2
          simp [h3, h4, h5]
      · have : ((ii ≤ r ∧ r < p + 1) ∧ jj ≤ c ∧ c < jm) ↔ ((ii ≤ r ∧ r < p) ∧ jj ≤ c ∧ c < jm) := by
          constructor
          · rintro ⟨⟨a, b⟩, d⟩; exact ⟨⟨a, by omega⟩, d⟩
          · rintro ⟨⟨a, b⟩, d⟩; exact ⟨⟨a, by omega⟩, d⟩
        simp [h2, this]
  · rw [forLoop_of_le _ _ _ _ (by omega)]
    refine Mat.ext_cells rfl rfl (fun r c => ?_)
    have : ¬ ((ii ≤ r ∧ r < im) ∧ jj ≤ c ∧ c < jm) := by omega
    simp [Mat.patch, this]

/-- The tiling loop over `jj` for one `(ii, kk)` pair: the rows of the tile, in every
column below `n`, accumulate the products of the `k` tile. -/
theorem blocked_jjloop (A B : Mat α) (n bs : Nat) (hbs : 0 < bs) (ii im kk km : Nat)
    (fuel : Nat) (hf : n ≤ fuel) (C : Mat α) :
    forStep bs n (fun jj C =>
        some (forLoop ii im (fun i C =>
          forLoop kk km (fun k C =>
            let aik := A.coeff i k
            forLoop jj (min (jj + bs) n) (fun j C =>
              C.set i j (C.coeff i j + aik * B.coeff k j)) C) C) C)) fuel 0 C
      = some (C.patch (fun r c => (ii ≤ r ∧ r < im) ∧ c < n)
          (fun r c => dotLoop A B r c kk km (C.coeff r c))) := by
  refine forStep_eq
    (fun p => C.patch (fun r c => (ii ≤ r ∧ r < im) ∧ c < p)
      (fun r c => dotLoop A B r c kk km (C.coeff r c)))
    bs n _ hbs ?_ fuel hf C ?_
  · intro p hp
    simp only []
    rw [blocked_iloop]
    congr 1
    refine Mat.ext_cells rfl rfl (fun r c => ?_)
    simp only [Mat.patch]
    by_cases h1 : ii ≤ r ∧ r < im
    · by_cases h2 : c < p
      · have h3 : ¬ (p ≤ c ∧ c < min (p + bs) n) := by omega
        have h4 : c < min (p + bs) n := by omega
        simp [h1, h2, h3, h4]
      · by_cases h3 : c < min (p + bs) n
        · have h4 : p ≤ c := by omega
          simp [h1, h2, h3, h4]
        · simp [h1, h2, h3]
    · simp [h1]
  · refine Mat.ext_cells rfl rfl (fun r c => ?_)
    simp [Mat.patch]

/-- The tiling loop over `kk` for one `ii`: the rows of the tile accumulate the
products for `k = 0, ..., n - 1` in this order. -/
theorem blocked_kkloop (A B : Mat α) (n bs : Nat) (hbs : 0 < bs) (ii im : Nat)
    (fuel : Nat) (hf : n ≤ fuel) (C : Mat α) :
    forStep bs n (fun kk C =>
      forStep bs n (fun jj C =>
        some (forLoop ii im (fun i C =>
          forLoop kk (min (kk + bs) n) (fun k C =>
            let aik := A.coeff i k
            forLoop jj (min (jj + bs) n) (fun j C =>
              C.set i j (C.coeff i j + aik * B.coeff k j)) C) C) C)) fuel 0 C) fuel 0 C
      = some (C.patch (fun r c => (ii ≤ r ∧ r < im) ∧ c < n)
          (fun r c => dotLoop A B r c 0 n (C.coeff r c))) := by
  refine forStep_eq
    (fun p => C.patch (fun r c => (ii ≤ r ∧ r < im) ∧ c < n)
      (fun r c => dotLoop A B r c 0 p (C.coeff r c)))
    bs n _ hbs ?_ fuel hf C ?_
  · intro p hp
    simp only []
    rw [blocked_jjloop A B n bs hbs ii im p (min (p + bs) n) fuel hf _]
    congr 1
    refine Mat.ext_cells rfl rfl (fun r c => ?_)
    simp only [Mat.patch]
    by_cases h1 : (ii ≤ r ∧ r < im) ∧ c < n
    · simp [h1, dotLoop_split A B r c 0 p (min (p + bs) n) _ (Nat.zero_le p) (by omega)]
    · simp [h1]
  · refine Mat.ext_cells rfl rfl (fun r c => ?_)
    simp [Mat.patch, dotLoop_of_le]

/-- The whole blocked nest: with a positive block size and `fuel ≥ n` it ends, and
every cell of the leading `n × n` block has accumulated, on top of what it held,
the products for `k = 0, ..., n - 1` in this order; the other cells are untouched. -/
theorem blocked_eq_patch (A B : Mat α) (n bs : Nat) (hbs : 0 < bs)
    (fuel : Nat) (hf : n ≤ fuel) (C : Mat α) :
    blocked fuel n bs A B C
      = some (C.patch (fun r c => r < n ∧ c < n)
          (fun r c => dotLoop A B r c 0 n (C.coeff r c))) := by
  unfold blocked
  refine forStep_eq
    (fun p => C.patch (fun r c => r < p ∧ c < n)
      (fun r c => dotLoop A B r c 0 n (C.coeff r c)))
    bs n _ hbs ?_ fuel hf C ?_
  · intro p hp
    simp only []
    rw [blocked_kkloop A B n bs hbs p (min (p + bs) n) fuel hf _]
    congr 1
    refine Mat.ext_cells rfl rfl (fun r c => ?_)
    simp only [Mat.patch]
    by_cases h1 : c < n
    · by_cases h2 : r < p
      · have h3 : ¬ (p ≤ r ∧ r < min (p + bs) n) := by omega
        have h4 : r < min (p + bs) n := by omega
        simp [h1, h2, h3, h4]
      · by_cases h3 : r < min (p + bs) n
        · have h4 : p ≤ r := by omega
          simp [h1, h2, h3, h4]
        · simp [h1, h2, h3]
    · simp [h1]
  · refine Mat.ext_cells rfl rfl (fun r c => ?_)
    simp [Mat.patch]

end BlockedLemmas

end MM

/-! ## Strassen's recursion -/

namespace MM

section StrassenLemmas

variable {α : Type} [Ring α]

theorem evenToLeaf_pow (k : Nat) : EvenToLeaf (LEAF_SIZE * 2 ^ k) := by
  induction k with
  | zero => exact EvenToLeaf.leaf _ (by simp)
  | succ m ih =>
    have e : LEAF_SIZE * 2 ^ (m + 1) / 2 = LEAF_SIZE * 2 ^ m := by
      rw [pow_succ, ← Nat.mul_assoc, Nat.mul_div_cancel _ (by decide : 0 < 2)]
    refine EvenToLeaf.split _ ?_ (by rw [e]; exact ih)
    rw [pow_succ, ← Nat.mul_assoc]; exact Nat.mul_mod_left _ _

/-- At or below the leaf threshold `strassen` is the library product. -/
theorem strassen_leaf (junk : α) (A B : Mat α) (h : A.rows ≤ LEAF_SIZE) :
    strassen junk A B = A.mul B := by
  rw [strassen, dif_pos h]

/-- One recursion level at an even dimension: if the seven recursive calls return
the product on dimension `n / 2`, the assembled result is the product on `n`. -/
theorem strassen_step (junk : α) (n : Nat) (hn : LEAF_SIZE < n) (he : n % 2 = 0)
    (IH : ∀ X Y : Mat α, X.IsSquare (n / 2) → Y.IsSquare (n / 2) →
      ∀ i j, i < n / 2 → j < n / 2 →
        (strassen junk X Y).coeff i j
          = ∑ k in Finset.range (n / 2), X.coeff i k * Y.coeff k j)
    (A B : Mat α) (hA : A.IsSquare n) (hB : B.IsSquare n) (i j : Nat)
    (hi : i < n) (hj : j < n) :
    (strassen junk A B).coeff i j = ∑ k in Finset.range n, A.coeff i k * B.coeff k j := by
  obtain ⟨Ar, Ac, a⟩ := A
  obtain ⟨Br, Bc, b⟩ := B
  simp only [Mat.IsSquare] at hA hB
  obtain ⟨hA1, hA2⟩ := hA
  obtain ⟨hB1, hB2⟩ := hB
  subst Ar Ac Br Bc
  have hnm : ¬ n ≤ LEAF_SIZE := by omega
  obtain ⟨m, rfl⟩ : ∃ m, n = m + m := ⟨n / 2, by omega⟩
  have e1 : (m + m) / 2 = m := by omega
  have e2 : m + m - m = m := by omega
  rw [e1] at IH
  rw [strassen, dif_neg hnm]
  simp only [e1, e2, Mat.topLeftCorner, Mat.topRightCorner, Mat.bottomLeftCorner,
    Mat.bottomRightCorner, Mat.block, Mat.setBlock, Mat.uninit]
  rw [Finset.sum_range_add]
  have IH' : ∀ (X Y : Mat α) (i j : Nat), i < m → j < m → X.rows = m → X.cols = m →
      Y.rows = m → Y.cols = m →
      (strassen junk X Y).coeff i j = ∑ k in Finset.range m, X.coeff i k * Y.coeff k j :=
    fun X Y i j h1 h2 h3 h4 h5 h6 => IH X Y ⟨h3, h4⟩ ⟨h5, h6⟩ i j h1 h2
  by_cases hi' : i < m
  · by_cases hj' : j < m
    · rw [if_neg (by omega), if_neg (by omega), if_neg (by omega), if_pos (by omega)]
      simp only [Mat.add, Mat.sub, Nat.sub_zero, Nat.zero_add]
      rw [IH' _ _ _ _ hi' hj' rfl rfl rfl rfl, IH' _ _ _ _ hi' hj' rfl rfl rfl rfl,
        IH' _ _ _ _ hi' hj' rfl rfl rfl rfl, IH' _ _ _ _ hi' hj' rfl rfl rfl rfl]
      simp only [← Finset.sum_add_distrib, ← Finset.sum_sub_distrib]
      refine Finset.sum_congr rfl (fun k _ => ?_)
      noncomm_ring
    · obtain ⟨j', rfl⟩ : ∃ j', j = m + j' := ⟨j - m, by omega⟩
      have hj'' : j' < m := by omega
      rw [if_neg (by omega), if_neg (by omega), if_pos (by omega)]
      simp only [Mat.add, Mat.sub, Nat.sub_zero, Nat.zero_add, Nat.add_sub_cancel_left]
      rw [IH' _ _ _ _ hi' hj'' rfl rfl rfl rfl, IH' _ _ _ _ hi' hj'' rfl rfl rfl rfl]
      simp only [← Finset.sum_add_distrib, ← Finset.sum_sub_distrib]
      refine Finset.sum_congr rfl (fun k _ => ?_)
      noncomm_ring
  · obtain ⟨i', rfl⟩ : ∃ i', i = m + i' := ⟨i - m, by omega⟩
    have hi'' : i' < m := by omega
    by_cases hj' : j < m
    · rw [if_neg (by omega), if_pos (by omega)]
      simp only [Mat.add, Mat.sub, Nat.sub_zero, Nat.zero_add, Nat.add_sub_cancel_left]
      rw [IH' _ _ _ _ hi'' hj' rfl rfl rfl rfl, IH' _ _ _ _ hi'' hj' rfl rfl rfl rfl]
      simp only [← Finset.sum_add_distrib, ← Finset.sum_sub_distrib]
      refine Finset.sum_congr rfl (fun k _ => ?_)
      noncomm_ring
    · obtain ⟨j', rfl⟩ : ∃ j', j = m + j' := ⟨j - m, by omega⟩
      have hj'' : j' < m := by omega
      rw [if_pos (by omega)]
      simp only [Mat.add, Mat.sub, Nat.sub_zero, Nat.zero_add, Nat.add_sub_cancel_left]
      rw [IH' _ _ _ _ hi'' hj'' rfl rfl rfl rfl, IH' _ _ _ _ hi'' hj'' rfl rfl rfl rfl,
        IH' _ _ _ _ hi'' hj'' rfl rfl rfl rfl, IH' _ _ _ _ hi'' hj'' rfl rfl rfl rfl]
      simp only [← Finset.sum_add_distrib, ← Finset.sum_sub_distrib]
      refine Finset.sum_congr rfl (fun k _ => ?_)
      noncomm_ring

/-- The result of `strassen` on `n × n` inputs is `n × n`. -/
theorem strassen_isSquare (junk : α) (n : Nat) (A B : Mat α) (hA : A.IsSquare n)
    (hB : B.IsSquare n) : (strassen junk A B).IsSquare n := by
  by_cases h : A.rows ≤ LEAF_SIZE
  · rw [strassen_leaf junk A B h]
    exact ⟨hA.1, hB.2⟩
  · rw [strassen, dif_neg h]
    exact ⟨hA.1, hA.1⟩

/-- On a dimension that stays even down to the leaf threshold, every cell of
`strassen A B` is the finite sum defining the product. -/
theorem strassen_coeff_of_evenToLeaf (junk : α) (n : Nat) (hn : EvenToLeaf n) :
    ∀ A B : Mat α, A.IsSquare n → B.IsSquare n → ∀ i j, i < n → j < n →
      (strassen junk A B).coeff i j = ∑ k in Finset.range n, A.coeff i k * B.coeff k j := by
  induction hn with
  | leaf n h =>
    intro A B hA hB i j _ _
    rw [strassen_leaf junk A B (by rw [hA.1]; exact h)]
    simp only [Mat.mul, hA.2]
  | split n h2 _ ih =>
    intro A B hA hB i j hi hj
    by_cases h1 : n ≤ LEAF_SIZE
    · rw [strassen_leaf junk A B (by rw [hA.1]; exact h1)]
      simp only [Mat.mul, hA.2]
    · exact strassen_step junk n (by omega) h2 ih A B hA hB i j hi hj

/-- One recursion level at dimension 65: the midpoint is 32, the right and bottom
quadrants start at index 33, and row 32 and column 32 of the operands are never
read. If the left operand vanishes off that row and column, cell `(0, 0)` of the
result is `0`. -/
theorem strassen_65_zero (junk : α) (X Y : Mat α) (hX : X.IsSquare 65)
    (hY : Y.IsSquare 65) (hz : ∀ i j, i ≠ 32 → j ≠ 32 → X.coeff i j = 0) :
    (strassen junk X Y).coeff 0 0 = 0 := by
  obtain ⟨Xr, Xc, x⟩ := X
  obtain ⟨Yr, Yc, y⟩ := Y
  obtain ⟨hX1, hX2⟩ := hX
  obtain ⟨hY1, hY2⟩ := hY
  simp only at hX1 hX2 hY1 hY2 hz
  subst Xr Xc Yr Yc
  have hnm : ¬ 65 ≤ LEAF_SIZE := by simp [LEAF_SIZE]
  have hleaf : 32 ≤ LEAF_SIZE := by simp [LEAF_SIZE]
  have e1 : 65 / 2 = 32 := by norm_num
  have e2 : 65 - 32 = 33 := by norm_num
  rw [strassen, dif_neg hnm]
  simp only [e1, e2, Mat.topLeftCorner, Mat.topRightCorner, Mat.bottomLeftCorner,
    Mat.bottomRightCorner, Mat.block, Mat.setBlock, Mat.uninit]
  rw [if_neg (by omega), if_neg (by omega), if_neg (by omega), if_pos (by omega)]
  simp only [Mat.add, Mat.sub]
  rw [strassen_leaf _ _ _ hleaf, strassen_leaf _ _ _ hleaf, strassen_leaf _ _ _ hleaf,
    strassen_leaf _ _ _ hleaf]
  simp only [Mat.mul]
  have z : ∀ k, k ∈ Finset.range 32 → ∀ r c, r ≠ 32 → (c = k ∨ c = 33 + k) → x r c = 0 := by
    intro k hk r c hr hc
    have hk' : k < 32 := Finset.mem_range.mp hk
    exact hz r c hr (by omega)
  rw [Finset.sum_eq_zero, Finset.sum_eq_zero, Finset.sum_eq_zero, Finset.sum_eq_zero]
  · simp
  all_goals
    intro k hk
    simp [z k hk _ _ (by omega : (0:Nat) ≠ 32) (Or.inl rfl),
      z k hk _ _ (by omega : (0:Nat) ≠ 32) (Or.inr rfl),
      z k hk _ _ (by omega : (33:Nat) ≠ 32) (Or.inl rfl),
      z k hk _ _ (by omega : (33:Nat) ≠ 32) (Or.inr rfl)]

end StrassenLemmas

end MM

/-! ## The multipliers: main results -/

namespace MM

/-- C1: in exact arithmetic (any ring, commutative or not), for every dimension `n`
that stays even at every recursion level down to the leaf threshold and all `n × n`
matrices `A` and `B`, `strassen A B` is `n × n` and equals the product `A * B` in
every cell; the dimensions `64 * 2 ^ k` and the program's `N = 1024` are of this
kind. -/
theorem strassen_eq_product :
    (∀ k : Nat, EvenToLeaf (64 * 2 ^ k)) ∧ EvenToLeaf N ∧
    ∀ (α : Type) [Ring α] (junk : α) (n : Nat), EvenToLeaf n →
      ∀ A B : Mat α, A.IsSquare n → B.IsSquare n →
        (strassen junk A B).IsSquare n ∧
        ∀ i j, i < n → j < n →
          (strassen junk A B).coeff i j = (A.mul B).coeff i j ∧
          (strassen junk A B).coeff i j = ∑ k in Finset.range n, A.coeff i k * B.coeff k j := by
  refine ⟨evenToLeaf_pow, ?_, ?_⟩
  · have := evenToLeaf_pow 4
    simpa [LEAF_SIZE, N] using this
  · intro α _ junk n hn A B hA hB
    refine ⟨strassen_isSquare junk n A B hA hB, fun i j hi hj => ?_⟩
    have h := strassen_coeff_of_evenToLeaf junk n hn A B hA hB i j hi hj
    refine ⟨?_, h⟩
    rw [h]
    simp only [Mat.mul, hA.2]

/-- C1, applied: `128` stays even down to the leaf threshold, and a cell of
`strassen` on two `128 × 128` integer matrices is the cell of the product. -/
theorem strassen_eq_product_witness :
    EvenToLeaf 128 ∧
    (strassen 0 (unitAt 128 3 5) (unitAt 128 5 7)).coeff 3 7
      = ∑ k in Finset.range 128, (unitAt 128 3 5).coeff 3 k * (unitAt 128 5 7).coeff k 7 :=
  have h : EvenToLeaf 128 := by simpa [LEAF_SIZE] using evenToLeaf_pow 1
  ⟨h, (((strassen_eq_product.2.2 Int 0 128 h (unitAt 128 3 5) (unitAt 128 5 7)
    ⟨rfl, rfl⟩ ⟨rfl, rfl⟩).2 3 7 (by decide) (by decide)).2)⟩

/-- C2, as stated, fails at the even dimension 130: the first recursion level works
on dimension 65, whose row 32 and column 32 are never read, and cell `(0, 0)` of
`strassen` is `0` where the naive triple loop computes `1`. -/
theorem strassen_ne_naive_at_130 :
    (unitAt 130 0 32).IsSquare 130 ∧ (unitAt 130 32 0).IsSquare 130 ∧ 130 % 2 = 0 ∧
    (strassen 0 (unitAt 130 0 32) (unitAt 130 32 0)).coeff 0 0 = 0 ∧
    (naive 130 (unitAt 130 0 32) (unitAt 130 32 0) (Mat.uninit 0 130 130)).coeff 0 0 = 1 := by
  refine ⟨⟨rfl, rfl⟩, ⟨rfl, rfl⟩, by decide, ?_, ?_⟩
  · have hnm : ¬ 130 ≤ LEAF_SIZE := by simp [LEAF_SIZE]
    have e1 : 130 / 2 = 65 := by norm_num
    have e2 : 130 - 65 = 65 := by norm_num
    rw [strassen, dif_neg (by simpa [unitAt] using hnm)]
    simp only [unitAt, e1, e2, Mat.topLeftCorner, Mat.topRightCorner, Mat.bottomLeftCorner,
      Mat.bottomRightCorner, Mat.block, Mat.setBlock, Mat.uninit]
    rw [if_neg (by omega), if_neg (by omega), if_neg (by omega), if_pos (by omega)]
    simp only [Mat.add, Mat.sub]
    rw [strassen_65_zero, strassen_65_zero, strassen_65_zero, strassen_65_zero]
    · simp
    all_goals first
      | exact ⟨rfl, rfl⟩
      | (intro i j hi hj
         simp only []
         split_ifs <;> omega)
  · rw [naive_eq_patch]
    simp only [Mat.patch, Mat.uninit]
    rw [if_pos (by omega), dotLoop_eq_sum, Finset.sum_eq_single 32]
    · simp [unitAt]
    · intro k _ hk
      simp [unitAt, hk]
    · intro h
      exact absurd (Finset.mem_range.mpr (by omega)) h

/-- C2, amended: in exact arithmetic, for every dimension `n` that stays even at
every recursion level down to the leaf threshold and all `n × n` matrices `A` and
`B`, `strassen A B` and the naive triple loop (run on any output buffer) agree in
every cell. -/
theorem strassen_eq_naive_of_evenToLeaf {α : Type} [Ring α] (junk : α) (n : Nat)
    (hn : EvenToLeaf n) (A B C0 : Mat α) (hA : A.IsSquare n) (hB : B.IsSquare n)
    (i j : Nat) (hi : i < n) (hj : j < n) :
    (strassen junk A B).coeff i j = (naive n A B C0).coeff i j := by
  rw [strassen_coeff_of_evenToLeaf junk n hn A B hA hB i j hi hj, naive_eq_patch]
  simp only [Mat.patch]
  rw [if_pos ⟨hi, hj⟩, dotLoop_eq_sum]

/-- C2, amended, applied at dimension 128 on integer matrices. -/
theorem strassen_eq_naive_of_evenToLeaf_witness :
    EvenToLeaf 128 ∧ (unitAt 128 1 100).IsSquare 128 ∧ (unitAt 128 100 2).IsSquare 128 ∧
    (strassen 0 (unitAt 128 1 100) (unitAt 128 100 2)).coeff 1 2
      = (naive 128 (unitAt 128 1 100) (unitAt 128 100 2) (Mat.uninit 5 128 128)).coeff 1 2 := by
  have h : EvenToLeaf 128 := by simpa [LEAF_SIZE] using evenToLeaf_pow 1
  have e := @strassen_eq_naive_of_evenToLeaf Int _ 0 128 h (unitAt 128 1 100)
    (unitAt 128 100 2) (Mat.uninit 5 128 128) ⟨rfl, rfl⟩ ⟨rfl, rfl⟩ 1 2 (by decide) (by decide)
  refine ⟨h, ⟨rfl, rfl⟩, ⟨rfl, rfl⟩, ?_⟩
  rw [naive_eq_patch] at e ⊢
  simp only [Mat.patch] at e ⊢
  rw [if_pos (by omega), dotLoop_eq_sum] at e ⊢
  exact e

/-- C3: for every `n ≤ LEAF_SIZE` and all `n × n` matrices `A` and `B`, `strassen A B`
is the direct product `A * B` itself (the recursive branch is not entered) and, in
exact arithmetic, equals the output of the naive triple loop cell for cell; for
`A = B = [[1, 2], [3, 4]]` the result is `[[7, 10], [15, 22]]`. -/
theorem strassen_leaf_exact :
    (∀ (α : Type) [Ring α] (junk : α) (n : Nat) (A B C0 : Mat α),
      n ≤ LEAF_SIZE → A.IsSquare n → B.IsSquare n →
        strassen junk A B = A.mul B ∧
        ∀ i j, i < n → j < n →
          (strassen junk A B).coeff i j = (naive n A B C0).coeff i j) ∧
    (strassen 0 M22 M22).rows = 2 ∧ (strassen 0 M22 M22).cols = 2 ∧
    (strassen 0 M22 M22).coeff 0 0 = 7 ∧ (strassen 0 M22 M22).coeff 0 1 = 10 ∧
    (strassen 0 M22 M22).coeff 1 0 = 15 ∧ (strassen 0 M22 M22).coeff 1 1 = 22 := by
  have hM : strassen 0 M22 M22 = M22.mul M22 := strassen_leaf 0 M22 M22 (by decide)
  refine ⟨?_, ?_⟩
  · intro α _ junk n A B C0 hn hA hB
    have hl : strassen junk A B = A.mul B :=
      strassen_leaf junk A B (by rw [hA.1]; exact hn)
    refine ⟨hl, fun i j hi hj => ?_⟩
    rw [hl, naive_eq_patch]
    simp only [Mat.patch, Mat.mul, hA.2]
    rw [if_pos ⟨hi, hj⟩, dotLoop_eq_sum]
  · rw [hM]
    refine ⟨rfl, rfl, ?_, ?_, ?_, ?_⟩ <;> decide

/-- C3, applied to `[[1, 2], [3, 4]]`: `strassen` returns the product, whose cell
`(1, 1)` is what the naive loop computes. -/
theorem strassen_leaf_exact_witness :
    2 ≤ LEAF_SIZE ∧ strassen 0 M22 M22 = M22.mul M22 ∧
    (strassen 0 M22 M22).coeff 1 1 = (naive 2 M22 M22 (Mat.uninit 9 2 2)).coeff 1 1 :=
  have h := strassen_leaf_exact.1 Int 0 2 M22 M22 (Mat.uninit 9 2 2) (by decide)
    ⟨rfl, rfl⟩ ⟨rfl, rfl⟩
  ⟨by decide, h.1, h.2 1 1 (by decide) (by decide)⟩

/-- C4: in exact arithmetic, for every dimension `n`, every block size `bs ≥ 1`
(dividing `n` or not) and all matrices `A` and `B`, the blocked loop nest run on a
zeroed output buffer ends (any fuel `≥ n` suffices) with the very matrix the naive
triple loop produces, whose cell `(i, j)` is the sum over `k < n` of
`A(i, k) * B(k, j)`. -/
theorem blocked_zeroed_eq_naive {α : Type} [Semiring α] (n bs fuel : Nat)
    (hbs : 1 ≤ bs) (hfuel : n ≤ fuel) (A B C : Mat α) :
    blocked fuel n bs A B C.setZero = some (naive n A B C.setZero) ∧
    ∀ i j, i < n → j < n →
      (naive n A B C.setZero).coeff i j
        = ∑ k in Finset.range n, A.coeff i k * B.coeff k j := by
  refine ⟨?_, fun i j hi hj => ?_⟩
  · rw [blocked_eq_patch A B n bs hbs fuel hfuel, naive_eq_patch]
    rfl
  · rw [naive_eq_patch]
    simp only [Mat.patch]
    rw [if_pos ⟨hi, hj⟩, dotLoop_eq_sum]

/-- C4, applied with `n = 3` and block size `2`, which does not divide `n`. -/
theorem blocked_zeroed_eq_naive_witness :
    blocked 3 3 2 (unitAt 3 0 2) (unitAt 3 2 1) (Mat.uninit 8 3 3).setZero
      = some (naive 3 (unitAt 3 0 2) (unitAt 3 2 1) (Mat.uninit 8 3 3).setZero) ∧
    (naive 3 (unitAt 3 0 2) (unitAt 3 2 1) (Mat.uninit 8 3 3).setZero).coeff 0 1 = 1 :=
  have h := @blocked_zeroed_eq_naive Int _ 3 2 3 (by decide) (by decide)
    (unitAt 3 0 2) (unitAt 3 2 1) (Mat.uninit 8 3 3)
  ⟨h.1, by decide⟩

/-- C5: for every `n` and all matrices `A` and `B`, after the naive triple loop every
output cell `(i, j)` with `i, j < n` is the sum over `k < n` of `A(i, k) * B(k, j)`,
whatever the output buffer `C0` held before. -/
theorem naive_cell_eq_sum {α : Type} [Semiring α] (n : Nat) (A B C0 : Mat α)
    (i j : Nat) (hi : i < n) (hj : j < n) :
    (naive n A B C0).coeff i j = ∑ k in Finset.range n, A.coeff i k * B.coeff k j := by
  rw [naive_eq_patch]
  simp only [Mat.patch]
  rw [if_pos ⟨hi, hj⟩, dotLoop_eq_sum]

/-- C5, applied to `[[1, 2], [3, 4]]` squared on a buffer full of `9`. -/
theorem naive_cell_eq_sum_witness :
    (naive 2 M22 M22 (Mat.uninit 9 2 2)).coeff 1 0
      = ∑ k in Finset.range 2, M22.coeff 1 k * M22.coeff k 0 ∧
    (naive 2 M22 M22 (Mat.uninit 9 2 2)).coeff 1 0 = 15 :=
  ⟨@naive_cell_eq_sum Int _ 2 M22 M22 (Mat.uninit 9 2 2) 1 0 (by decide) (by decide),
    by decide⟩

end MM

/-! ## Summary statistics: lemmas and results -/

namespace MM

section StatsLemmas

variable {α : Type} [LinearOrderedField α]

theorem foldl_add_eq (f : α → α) (l : List α) (a : α) :
    l.foldl (fun acc y => acc + f y) a = a + (l.map f).sum := by
  induction l generalizing a with
  | nil => simp
  | cons x xs ih => simp [List.foldl_cons, ih, add_assoc]

theorem min_element_spec (x : α) (xs : List α) :
    min_element x xs ∈ x :: xs ∧ ∀ y ∈ x :: xs, min_element x xs ≤ y := by
  unfold min_element
  induction xs generalizing x with
  | nil => simp
  | cons z zs ih =>
    simp only [List.foldl_cons]
    by_cases h : z < x
    · rw [if_pos h]
      obtain ⟨h1, h2⟩ := ih z
      refine ⟨?_, ?_⟩
      · rcases List.mem_cons.mp h1 with e | e
        · rw [e]; simp
        · exact List.mem_cons_of_mem _ (List.mem_cons_of_mem _ e)
      · intro y hy
        rcases List.mem_cons.mp hy with e | e
        · rw [e]; exact le_trans (h2 z (List.mem_cons_self _ _)) (le_of_lt h)
        · exact h2 y e
    · rw [if_neg h]
      obtain ⟨h1, h2⟩ := ih x
      refine ⟨?_, ?_⟩
      · rcases List.mem_cons.mp h1 with e | e
        · rw [e]; simp
        · exact List.mem_cons_of_mem _ (List.mem_cons_of_mem _ e)
      · intro y hy
        rcases List.mem_cons.mp hy with e | e
        · rw [e]; exact h2 x (List.mem_cons_self _ _)
        · rcases List.mem_cons.mp e with e' | e'
          · rw [e']; exact le_trans (h2 x (List.mem_cons_self _ _)) (not_lt.mp h)
          · exact h2 y (List.mem_cons_of_mem _ e')

theorem max_element_spec (x : α) (xs : List α) :
    max_element x xs ∈ x :: xs ∧ ∀ y ∈ x :: xs, y ≤ max_element x xs := by
  unfold max_element
  induction xs generalizing x with
  | nil => simp
  | cons z zs ih =>
    simp only [List.foldl_cons]
    by_cases h : x < z
    · rw [if_pos h]
      obtain ⟨h1, h2⟩ := ih z
      refine ⟨?_, ?_⟩
      · rcases List.mem_cons.mp h1 with e | e
        · rw [e]; simp
        · exact List.mem_cons_of_mem _ (List.mem_cons_of_mem _ e)
      · intro y hy
        rcases List.mem_cons.mp hy with e | e
        · rw [e]; exact le_trans (le_of_lt h) (h2 z (List.mem_cons_self _ _))
        · exact h2 y e
    · rw [if_neg h]
      obtain ⟨h1, h2⟩ := ih x
      refine ⟨?_, ?_⟩
      · rcases List.mem_cons.mp h1 with e | e
        · rw [e]; simp
        · exact List.mem_cons_of_mem _ (List.mem_cons_of_mem _ e)
      · intro y hy
        rcases List.mem_cons.mp hy with e | e
        · rw [e]; exact h2 x (List.mem_cons_self _ _)
        · rcases List.mem_cons.mp e with e' | e'
          · rw [e']; exact le_trans (not_lt.mp h) (h2 x (List.mem_cons_self _ _))
          · exact h2 y (List.mem_cons_of_mem _ e')

theorem sum_sq_nonneg (c : α) (l : List α) :
    0 ≤ (l.map (fun y => (y - c) * (y - c))).sum := by
  apply List.sum_nonneg
  intro z hz
  obtain ⟨y, _, rfl⟩ := List.mem_map.mp hz
  exact mul_self_nonneg _

/-- The fields of `compute_stats` on a non-empty sample list, spelled out. -/
theorem compute_stats_cons (sqrt : α → α) (x : α) (xs : List α) :
    compute_stats sqrt (x :: xs)
      = ⟨some ((x :: xs).sum / ((x :: xs).length : α)),
          if 1 < (x :: xs).length then
            sqrt_or_nan sqrt
              (((x :: xs).map (fun y => (y - (x :: xs).sum / ((x :: xs).length : α))
                  * (y - (x :: xs).sum / ((x :: xs).length : α)))).sum
                / (((x :: xs).length - 1 : Nat) : α))
          else none,
          some (min_element x xs), some (max_element x xs)⟩ := by
  have hs : (x :: xs).foldl (fun acc y => acc + y) 0 = (x :: xs).sum := by
    have := foldl_add_eq (fun y : α => y) (x :: xs) 0
    simpa using this
  simp only [compute_stats, hs, gt_iff_lt]
  congr 1
  by_cases h : 1 < (x :: xs).length
  · rw [if_pos h, if_pos h]
    have := foldl_add_eq (fun y : α => (y - (x :: xs).sum / ((x :: xs).length : α))
      * (y - (x :: xs).sum / ((x :: xs).length : α))) (x :: xs) 0
    simp only [zero_add] at this
    rw [this]
  · rw [if_neg h, if_neg h]

end StatsLemmas

/-- C6: for every non-empty sequence `v` of real samples, `compute_stats` returns
`mean = (sum of v) / count`, `min` the least element of `v`, `max` the greatest
element of `v` and, when `count ≥ 2`, `sd` the square root of the sum of
`(x - mean)^2` over `v` divided by `count - 1`; for `v = [1, 2, 3]` this is mean `2`,
sd `1`, min `1`, max `3`. -/
theorem compute_stats_spec :
    (∀ v : List ℝ, v ≠ [] →
      (compute_stats Real.sqrt v).mean = some (v.sum / (v.length : ℝ)) ∧
      (∃ m, (compute_stats Real.sqrt v).min = some m ∧ m ∈ v ∧ ∀ x ∈ v, m ≤ x) ∧
      (∃ M, (compute_stats Real.sqrt v).max = some M ∧ M ∈ v ∧ ∀ x ∈ v, x ≤ M) ∧
      (2 ≤ v.length →
        (compute_stats Real.sqrt v).sd
          = some (Real.sqrt ((v.map (fun x => (x - v.sum / (v.length : ℝ)) ^ 2)).sum
              / ((v.length : ℝ) - 1))))) ∧
    compute_stats Real.sqrt [1, 2, 3] = ⟨some 2, some 1, some 1, some 3⟩ := by
  have main : ∀ v : List ℝ, v ≠ [] →
      (compute_stats Real.sqrt v).mean = some (v.sum / (v.length : ℝ)) ∧
      (∃ m, (compute_stats Real.sqrt v).min = some m ∧ m ∈ v ∧ ∀ x ∈ v, m ≤ x) ∧
      (∃ M, (compute_stats Real.sqrt v).max = some M ∧ M ∈ v ∧ ∀ x ∈ v, x ≤ M) ∧
      (2 ≤ v.length →
        (compute_stats Real.sqrt v).sd
          = some (Real.sqrt ((v.map (fun x => (x - v.sum / (v.length : ℝ)) ^ 2)).sum
              / ((v.length : ℝ) - 1)))) := by
    intro v hv
    obtain ⟨x, xs, rfl⟩ := List.exists_cons_of_ne_nil hv
    rw [compute_stats_cons]
    refine ⟨rfl, ⟨_, rfl, min_element_spec x xs⟩, ⟨_, rfl, max_element_spec x xs⟩, ?_⟩
    intro h2
    have h1 : 1 < (x :: xs).length := h2
    simp only [if_pos h1, sqrt_or_nan]
    have hcast : (((x :: xs).length - 1 : Nat) : ℝ) = ((x :: xs).length : ℝ) - 1 := by
      rw [Nat.cast_sub (le_of_lt h1)]; simp
    have hnn : ¬ ((List.map (fun y => (y - (x :: xs).sum / ((x :: xs).length : ℝ))
        * (y - (x :: xs).sum / ((x :: xs).length : ℝ))) (x :: xs)).sum
          / (((x :: xs).length - 1 : Nat) : ℝ) < 0) := by
      apply not_lt.mpr
      exact div_nonneg (sum_sq_nonneg _ _) (Nat.cast_nonneg _)
    rw [if_neg hnn, hcast]
    simp only [pow_two]
  refine ⟨main, ?_⟩
  rw [compute_stats_cons]
  simp only [min_element, max_element, sqrt_or_nan, List.foldl_cons, List.foldl_nil,
    List.length_cons, List.length_nil, List.sum_cons, List.sum_nil, List.map_cons, List.map_nil]
  norm_num

/-- C6, applied to the samples `[4, 6]`. -/
theorem compute_stats_spec_witness :
    ([4, 6] : List ℝ) ≠ [] ∧
    (compute_stats Real.sqrt [4, 6]).mean
      = some (([4, 6] : List ℝ).sum / (([4, 6] : List ℝ).length : ℝ)) :=
  ⟨by simp, (compute_stats_spec.1 [4, 6] (by simp)).1⟩

/-- C7: on the empty sequence `compute_stats` returns (it is a total function) a
record whose four fields `mean`, `sd`, `min` and `max` are all not-a-number. -/
theorem compute_stats_empty {α : Type} [LinearOrderedField α] (sqrt : α → α) :
    compute_stats sqrt [] = ⟨none, none, none, none⟩ ∧
    (compute_stats sqrt []).mean = none ∧ (compute_stats sqrt []).sd = none ∧
    (compute_stats sqrt []).min = none ∧ (compute_stats sqrt []).max = none :=
  ⟨rfl, rfl, rfl, rfl, rfl⟩

/-- C8: for every single-sample sequence `[x]`, `compute_stats` returns `sd`
not-a-number while `mean`, `min` and `max` all equal `x`; and for every sequence,
`sd` is a number exactly when there are at least two samples. -/
theorem compute_stats_single_and_sd {α : Type} [LinearOrderedField α] (sqrt : α → α) :
    (∀ x : α, compute_stats sqrt [x] = ⟨some x, none, some x, some x⟩) ∧
    (∀ v : List α, (∃ s, (compute_stats sqrt v).sd = some s) ↔ 2 ≤ v.length) := by
  refine ⟨fun x => ?_, fun v => ?_⟩
  · rw [compute_stats_cons]
    simp [min_element, max_element]
  · cases v with
    | nil => simp [compute_stats]
    | cons x xs =>
      rw [compute_stats_cons]
      by_cases h1 : 1 < (x :: xs).length
      · have hnn : ¬ ((List.map (fun y => (y - (x :: xs).sum / ((x :: xs).length : α))
            * (y - (x :: xs).sum / ((x :: xs).length : α))) (x :: xs)).sum
              / (((x :: xs).length - 1 : Nat) : α) < 0) := by
          apply not_lt.mpr
          exact div_nonneg (sum_sq_nonneg _ _) (Nat.cast_nonneg _)
        simp only [if_pos h1, sqrt_or_nan, if_neg hnn]
        exact ⟨fun _ => h1, fun _ => ⟨_, rfl⟩⟩
      · simp only [if_neg h1]
        constructor
        · rintro ⟨s, hs⟩; exact absurd hs (by simp)
        · intro h2; exact absurd h2 h1

end MM

/-! ## The matrix loader: lemmas and results -/

namespace MM

section LoaderLemmas

variable {α : Type}

/-- The list `getlines d s` is the iteration of `getline` until it fails. -/
theorem getlines_eq_getline (d : Char) (s : List Char) :
    getlines d s =
      match getline d s with
      | none => []
      | some (l, rest) => l :: getlines d rest := by
  induction s with
  | nil => rfl
  | cons c cs ih =>
    by_cases h : c = d
    · simp [getlines, getline, h]
    · simp only [getlines, getline, if_neg h]
      rw [ih]
      cases hg : getline d cs with
      | none => simp [getlines]
      | some p => obtain ⟨l, rest⟩ := p; simp

/-- The inner loop raises exactly when `std::stod` rejects one of the fields it
reaches: those in columns `j, ..., n - 1`. -/
theorem readCells_error_iff (stod : List Char → Option α) (n i : Nat)
    (cells : List (List Char)) (j : Nat) (M : Mat (Option α)) :
    (∃ e, readCells stod n i cells j M = .error e)
      ↔ ∃ cell ∈ cells.take (n - j), stod cell = none := by
  induction cells generalizing j M with
  | nil => simp [readCells]
  | cons c rest ih =>
    by_cases hj : j < n
    · have e : n - j = (n - (j + 1)) + 1 := by omega
      rw [e, List.take_succ_cons]
      simp only [readCells, if_pos hj]
      cases hs : stod c with
      | none => simp [hs]
      | some x =>
        simp only [List.mem_cons, exists_eq_or_imp, hs]
        rw [ih (j + 1) (M.set i j (some x))]
        simp
    · have e : n - j = 0 := by omega
      simp [readCells, hj, e]

/-- The outer loop raises exactly when `std::stod` rejects one of the first `n`
fields of one of the lines it reaches: those of rows `i, ..., n - 1`. -/
theorem readRows_error_iff (stod : List Char → Option α) (n : Nat)
    (lines : List (List Char)) (i : Nat) (M : Mat (Option α)) :
    (∃ e, readRows stod n lines i M = .error e)
      ↔ ∃ line ∈ lines.take (n - i), ∃ cell ∈ (getlines comma line).take n,
          stod cell = none := by
  induction lines generalizing i M with
  | nil => simp [readRows]
  | cons l rest ih =>
    by_cases hi : i < n
    · have e : n - i = (n - (i + 1)) + 1 := by omega
      rw [e, List.take_succ_cons]
      simp only [readRows, if_pos hi, List.mem_cons, exists_eq_or_imp]
      have hc := readCells_error_iff stod n i (getlines comma l) 0 M
      rw [Nat.sub_zero] at hc
      cases hr : readCells stod n i (getlines comma l) 0 M with
      | error err =>
        have : ∃ cell ∈ (getlines comma l).take n, stod cell = none := hc.mp ⟨err, hr⟩
        simp [this]
      | ok M' =>
        have : ¬ ∃ cell ∈ (getlines comma l).take n, stod cell = none := by
          intro h
          obtain ⟨err, herr⟩ := hc.mpr h
          rw [hr] at herr
          cases herr
        simp only [this, false_or]
        exact ih (i + 1) M'
    · have e : n - i = 0 := by omega
      simp [readRows, hi, e]

/-- When the outer loop ends normally, the row counter has advanced by the number
of lines, capped at `n`. -/
theorem readRows_ok_index (stod : List Char → Option α) (n : Nat)
    (lines : List (List Char)) (i : Nat) (M : Mat (Option α)) (i' : Nat)
    (M' : Mat (Option α)) (hi : i ≤ n) (h : readRows stod n lines i M = .ok (i', M')) :
    i' = min (i + lines.length) n := by
  induction lines generalizing i M with
  | nil =>
    simp only [readRows, Except.ok.injEq, Prod.mk.injEq] at h
    simp only [List.length_nil]
    omega
  | cons l rest ih =>
    by_cases hlt : i < n
    · simp only [readRows, if_pos hlt] at h
      cases hr : readCells stod n i (getlines comma l) 0 M with
      | error err => rw [hr] at h; cases h
      | ok M1 =>
        rw [hr] at h
        have := ih (i + 1) M1 (by omega) h
        simp only [List.length_cons]
        omega
    · simp only [readRows, if_neg hlt, Except.ok.injEq, Prod.mk.injEq] at h
      simp only [List.length_cons]
      omega

end LoaderLemmas

/-- C9: for every file state and every `n`, `load_matrix_csv` fails if and only if
the file cannot be opened, or it holds fewer than `n` lines, or `std::stod` rejects
one of the first `n` fields of one of the first `n` lines; in particular a file with
fewer than `n` lines never yields a matrix. -/
theorem load_matrix_csv_fails_iff {α : Type} (stod : List Char → Option α)
    (file : Option (List Char)) (n : Nat) :
    ((∃ e, load_matrix_csv stod file n = .error e) ↔
      (file = none ∨
        ∃ content, file = some content ∧
          ((getlines newline content).length < n ∨
            ∃ line ∈ (getlines newline content).take n,
              ∃ cell ∈ (getlines comma line).take n, stod cell = none))) ∧
    (∀ content, file = some content → (getlines newline content).length < n →
      ∀ M, load_matrix_csv stod file n ≠ .ok M) := by
  have key : ∀ content : List Char,
      (∃ e, load_matrix_csv stod (some content) n = .error e) ↔
        ((getlines newline content).length < n ∨
          ∃ line ∈ (getlines newline content).take n,
            ∃ cell ∈ (getlines comma line).take n, stod cell = none) := by
    intro content
    have hre := readRows_error_iff stod n (getlines newline content) 0 (Mat.uninit none n n)
    rw [Nat.sub_zero] at hre
    simp only [load_matrix_csv]
    cases hr : readRows stod n (getlines newline content) 0 (Mat.uninit none n n) with
    | error err =>
      have hbad := hre.mp ⟨err, hr⟩
      exact ⟨fun _ => Or.inr hbad, fun _ => ⟨err, rfl⟩⟩
    | ok p =>
      obtain ⟨i', M'⟩ := p
      have hidx := readRows_ok_index stod n _ 0 _ i' M' (Nat.zero_le n) hr
      have hgood : ¬ ∃ line ∈ (getlines newline content).take n,
          ∃ cell ∈ (getlines comma line).take n, stod cell = none := by
        intro h
        obtain ⟨err, herr⟩ := hre.mpr h
        rw [hr] at herr
        cases herr
      by_cases hn : i' ≠ n
      · simp only [if_pos hn]
        exact ⟨fun _ => Or.inl (by omega), fun _ => ⟨_, rfl⟩⟩
      · simp only [if_neg hn]
        constructor
        · rintro ⟨e, he⟩; cases he
        · rintro (h | h)
          · exact absurd (show i' ≠ n by omega) hn
          · exact absurd h hgood
  refine ⟨?_, ?_⟩
  · cases file with
    | none => exact ⟨fun _ => Or.inl rfl, fun _ => ⟨_, rfl⟩⟩
    | some content =>
      rw [key content]
      constructor
      · intro h; exact Or.inr ⟨content, rfl, h⟩
      · rintro (h | ⟨c, hc, h⟩)
        · cases h
        · cases hc; exact h
  · intro content hfile hlen M hM
    subst hfile
    obtain ⟨e, he⟩ := (key content).mpr (Or.inl hlen)
    rw [hM] at he
    cases he

/-- C9, applied: a file of two lines loaded with `n = 3` fails, and so does a file
whose second line holds a field that is no number. -/
theorem load_matrix_csv_fails_iff_witness :
    (getlines newline "1,2,3\n4,5,6\n".data).length < 3 ∧
    (∃ e, load_matrix_csv stodNat (some "1,2,3\n4,5,6\n".data) 3 = .error e) ∧
    load_matrix_csv stodNat (some "1,2,3\n4,5,6\n".data) 3 = .error .rowCount ∧
    load_matrix_csv stodNat (some "1,2\n3,x\n".data) 2 = .error .invalidArgument ∧
    load_matrix_csv stodNat none 2 = .error .cannotOpen :=
  ⟨by decide,
    ((load_matrix_csv_fails_iff stodNat (some "1,2,3\n4,5,6\n".data) 3).1).mpr
      (Or.inr ⟨_, rfl, Or.inl (by decide)⟩),
    rfl, rfl, rfl⟩

/-- C10 fails on the code: on the file `1,2` / `3` with `n = 2` the loader succeeds
although the second line supplies one field only, and cell `(1, 1)` of the matrix
it returns was never assigned. -/
theorem load_matrix_csv_short_row_unset :
    ∃ M, load_matrix_csv stodNat (some "1,2\n3\n".data) 2 = .ok M ∧
      M.rows = 2 ∧ M.cols = 2 ∧
      M.coeff 0 0 = some 1 ∧ M.coeff 0 1 = some 2 ∧ M.coeff 1 0 = some 3 ∧
      M.coeff 1 1 = none ∧
      getlines newline "1,2\n3\n".data = ["1,2".data, "3".data] ∧
      getlines comma "3".data = ["3".data] := by
  refine ⟨_, rfl, ?_, ?_, ?_, ?_, ?_, ?_, ?_, ?_⟩ <;> decide

end MM

/-! ## The matrix loader: what it reads -/

namespace MM

section LoaderCut

variable {α : Type}

theorem getlines_cons_ne (d c : Char) (cs : List Char) (h : c ≠ d) :
    getlines d (c :: cs) =
      match getlines d cs with
      | [] => [[c]]
      | l :: ls => (c :: l) :: ls := by
  simp [getlines, h]

/-- No piece extracted with delimiter `d` holds a `d`. -/
theorem getlines_no_delim (d : Char) (s : List Char) :
    ∀ l ∈ getlines d s, d ∉ l := by
  induction s with
  | nil => simp [getlines]
  | cons c cs ih =>
    by_cases h : c = d
    · simp only [getlines, if_pos h, List.mem_cons]
      rintro l (rfl | hl)
      · simp
      · exact ih l hl
    · rw [getlines_cons_ne d c cs h]
      cases hg : getlines d cs with
      | nil =>
        simp only [List.mem_singleton]
        rintro l rfl
        simp [Ne.symm h]
      | cons l0 ls =>
        rw [hg] at ih
        simp only [List.mem_cons]
        rintro l (rfl | hl)
        · have := ih l0 (List.mem_cons_self _ _)
          simp [Ne.symm h, this]
        · exact ih l (List.mem_cons_of_mem _ hl)

/-- Every character of an extracted piece is a character of the text. -/
theorem getlines_subset (d : Char) (s : List Char) :
    ∀ l ∈ getlines d s, ∀ c ∈ l, c ∈ s := by
  induction s with
  | nil => simp [getlines]
  | cons c cs ih =>
    by_cases h : c = d
    · simp only [getlines, if_pos h, List.mem_cons]
      rintro l (rfl | hl) x hx
      · cases hx
      · exact Or.inr (ih l hl x hx)
    · rw [getlines_cons_ne d c cs h]
      cases hg : getlines d cs with
      | nil =>
        simp only [List.mem_singleton]
        rintro l rfl x hx
        simp only [List.mem_singleton] at hx
        simp [hx]
      | cons l0 ls =>
        rw [hg] at ih
        simp only [List.mem_cons]
        rintro l (rfl | hl) x hx
        · rcases List.mem_cons.mp hx with e | e
          · exact Or.inl e
          · exact Or.inr (ih l0 (List.mem_cons_self _ _) x e)
        · exact Or.inr (ih l (List.mem_cons_of_mem _ hl) x hx)

theorem getlines_append_delim (d : Char) (p rest : List Char) (hp : d ∉ p) :
    getlines d (p ++ d :: rest) = p :: getlines d rest := by
  induction p with
  | nil => simp [getlines]
  | cons c cs ih =>
    have hc : c ≠ d := fun e => hp (by simp [e])
    have hcs : d ∉ cs := fun e => hp (List.mem_cons_of_mem _ e)
    rw [List.cons_append, getlines_cons_ne d c _ hc, ih hcs]

/-- Extracting the pieces of a text built from pieces without the delimiter gives
the pieces back. -/
theorem getlines_terminated (d : Char) (ps : List (List Char)) (h : ∀ p ∈ ps, d ∉ p) :
    getlines d (terminated d ps) = ps := by
  induction ps with
  | nil => rfl
  | cons p rest ih =>
    simp only [terminated]
    rw [getlines_append_delim d p _ (h p (List.mem_cons_self _ _)),
      ih (fun q hq => h q (List.mem_cons_of_mem _ hq))]

/-- The inner loop looks at the fields of columns `j, ..., n - 1` only. -/
theorem readCells_take (stod : List Char → Option α) (n i : Nat)
    (cells : List (List Char)) (j : Nat) (M : Mat (Option α)) :
    readCells stod n i cells j M = readCells stod n i (cells.take (n - j)) j M := by
  induction cells generalizing j M with
  | nil => simp [readCells]
  | cons c rest ih =>
    by_cases hj : j < n
    · have e : n - j = (n - (j + 1)) + 1 := by omega
      rw [e, List.take_succ_cons]
      simp only [readCells, if_pos hj]
      cases hs : stod c with
      | none => rfl
      | some x => exact ih (j + 1) _
    · have e : n - j = 0 := by omega
      simp [readCells, hj, e]

/-- The outer loop depends on the lines of rows `i, ..., n - 1` only, and on each
of them through its first `n` fields. -/
theorem readRows_congr (stod : List Char → Option α) (n : Nat)
    (ls ls' : List (List Char)) (i : Nat) (M : Mat (Option α))
    (h : (ls.take (n - i)).map (cutFields n) = (ls'.take (n - i)).map (cutFields n)) :
    readRows stod n ls i M = readRows stod n ls' i M := by
  induction ls generalizing ls' i M with
  | nil =>
    cases ls' with
    | nil => rfl
    | cons l' rest' =>
      by_cases hi : i < n
      · have e : n - i = (n - (i + 1)) + 1 := by omega
        rw [e] at h
        simp at h
      · simp [readRows, hi]
  | cons l rest ih =>
    by_cases hi : i < n
    · have e : n - i = (n - (i + 1)) + 1 := by omega
      rw [e] at h
      cases ls' with
      | nil => simp at h
      | cons l' rest' =>
        simp only [List.take_succ_cons, List.map_cons, List.cons.injEq] at h
        obtain ⟨h1, h2⟩ := h
        simp only [readRows, if_pos hi]
        have hc : readCells stod n i (getlines comma l) 0 M
            = readCells stod n i (getlines comma l') 0 M := by
          rw [readCells_take stod n i (getlines comma l) 0 M,
            readCells_take stod n i (getlines comma l') 0 M, Nat.sub_zero]
          simp only [cutFields] at h1
          rw [h1]
        rw [hc]
        cases readCells stod n i (getlines comma l') 0 M with
        | error e => rfl
        | ok M' => exact ih rest' (i + 1) M' h2
    · cases ls' with
      | nil => simp [readRows, hi]
      | cons l' rest' => simp [readRows, hi]

/-- The lines of the cut-down content are the first `n` lines, each rebuilt from
its first `n` fields. -/
theorem getlines_cutDown (n : Nat) (content : List Char) :
    getlines newline (cutDown n content)
      = ((getlines newline content).take n).map
          (fun line => terminated comma (cutFields n line)) := by
  unfold cutDown
  apply getlines_terminated
  intro p hp
  obtain ⟨line, hline, rfl⟩ := List.mem_map.mp hp
  have hl : line ∈ getlines newline content := List.mem_of_mem_take hline
  have hno : newline ∉ line := getlines_no_delim newline content line hl
  have hfields : ∀ f ∈ cutFields n line, newline ∉ f := by
    intro f hf hmem
    exact hno (getlines_subset comma line f (List.mem_of_mem_take hf) newline hmem)
  generalize cutFields n line = fs at hfields
  induction fs with
  | nil => simp [terminated]
  | cons f rest ih =>
    simp only [terminated, List.mem_append, List.mem_cons, not_or]
    refine ⟨hfields f (List.mem_cons_self _ _), by decide, ?_⟩
    exact ih (fun q hq => hfields q (List.mem_cons_of_mem _ hq))

/-- The reachable fields of a rebuilt line are the reachable fields of the line. -/
theorem cutFields_rebuilt (n : Nat) (line : List Char) :
    cutFields n (terminated comma (cutFields n line)) = cutFields n line := by
  have h : getlines comma (terminated comma (cutFields n line)) = cutFields n line :=
    getlines_terminated comma _
      (fun f hf => getlines_no_delim comma line f (List.mem_of_mem_take hf))
  unfold cutFields at h ⊢
  rw [h, List.take_take, Nat.min_self]

/-- The outcome of the loader is determined by the first `n` fields of the first
`n` lines. -/
theorem load_matrix_csv_congr (stod : List Char → Option α) (n : Nat)
    (content content' : List Char)
    (h : ((getlines newline content).take n).map (cutFields n)
      = ((getlines newline content').take n).map (cutFields n)) :
    load_matrix_csv stod (some content) n = load_matrix_csv stod (some content') n := by
  simp only [load_matrix_csv]
  rw [readRows_congr stod n (getlines newline content) (getlines newline content') 0 _
    (by rw [Nat.sub_zero]; exact h)]

end LoaderCut

/-- C11: for every file content and every `n`, `load_matrix_csv` gives the same
outcome (the same matrix, or the same failure) on the content and on the content cut
down to its first `n` lines and to the first `n` fields of each of them; more
generally two contents that agree on these fields give the same outcome, so neither
the text of a field beyond column `n` nor a line beyond row `n` is ever parsed. -/
theorem load_matrix_csv_cutDown {α : Type} (stod : List Char → Option α)
    (content : List Char) (n : Nat) :
    load_matrix_csv stod (some content) n
      = load_matrix_csv stod (some (cutDown n content)) n ∧
    (getlines newline (cutDown n content)).map (getlines comma)
      = ((getlines newline content).take n).map (cutFields n) ∧
    (∀ content' : List Char,
      ((getlines newline content).take n).map (cutFields n)
        = ((getlines newline content').take n).map (cutFields n) →
      load_matrix_csv stod (some content) n = load_matrix_csv stod (some content') n) := by
  have hfields : ∀ line : List Char,
      getlines comma (terminated comma (cutFields n line)) = cutFields n line :=
    fun line => getlines_terminated comma _
      (fun f hf => getlines_no_delim comma line f (List.mem_of_mem_take hf))
  refine ⟨?_, ?_, fun content' h => load_matrix_csv_congr stod n content content' h⟩
  · apply load_matrix_csv_congr
    have ht : ∀ (f : List Char → List Char) (l : List (List Char)),
        ((l.take n).map f).take n = (l.take n).map f := by
      intro f l
      apply List.take_of_length_le
      simp [List.length_take]
    rw [getlines_cutDown, ht, List.map_map]
    apply List.map_congr_left
    intro line _
    exact (cutFields_rebuilt n line).symm
  · rw [getlines_cutDown, List.map_map]
    apply List.map_congr_left
    intro line _
    exact hfields line

/-- C11, applied: with `n = 2`, a file whose first line has an unparseable third
field and which has an unparseable third line loads like the 2 x 2 file it is cut
down to, and the load succeeds. -/
theorem load_matrix_csv_cutDown_witness :
    cutDown 2 "1,2,x\n3,4\nzz".data = "1,2,\n3,4,\n".data ∧
    load_matrix_csv stodNat (some "1,2,x\n3,4\nzz".data) 2
      = load_matrix_csv stodNat (some "1,2,\n3,4,\n".data) 2 ∧
    stodNat "x".data = none ∧ stodNat "zz".data = none ∧
    ∃ M, load_matrix_csv stodNat (some "1,2,x\n3,4\nzz".data) 2 = .ok M ∧
      M.coeff 0 0 = some 1 ∧ M.coeff 0 1 = some 2 ∧
      M.coeff 1 0 = some 3 ∧ M.coeff 1 1 = some 4 := by
  have hc : cutDown 2 "1,2,x\n3,4\nzz".data = "1,2,\n3,4,\n".data := by decide
  refine ⟨hc, ?_, by decide, by decide, _, rfl, by decide, by decide, by decide, by decide⟩
  rw [← hc]
  exact (load_matrix_csv_cutDown stodNat "1,2,x\n3,4\nzz".data 2).1

end MM

/-! ## The iteration order of the blocked nest: lemmas -/

namespace MM

section OrderLemmas

variable {σ τ : Type}

/-- A map `F` that commutes with the loop bodies commutes with the loop. -/
theorem forLoop_comm (F : τ → σ) (f : Nat → σ → σ) (g : Nat → τ → τ)
    (h : ∀ i t, f i (F t) = F (g i t)) (lo hi : Nat) (t : τ) :
    forLoop lo hi f (F t) = F (forLoop lo hi g t) := by
  unfold forLoop
  generalize List.range' lo (hi - lo) = l
  induction l generalizing t with
  | nil => rfl
  | cons x xs ih => simp only [List.foldl_cons, h, ih]

/-- A map `F` that commutes with the bodies of a stepped loop commutes with the
loop. -/
theorem forStep_comm (F : τ → σ) (step hi : Nat) (f : Nat → σ → Option σ)
    (g : Nat → τ → Option τ) (h : ∀ i t, f i (F t) = (g i t).map F)
    (fuel i : Nat) (t : τ) :
    forStep step hi f fuel i (F t) = (forStep step hi g fuel i t).map F := by
  induction fuel generalizing i t with
  | zero =>
    by_cases hlt : i < hi <;> simp [forStep, hlt]
  | succ m ih =>
    by_cases hlt : i < hi
    · simp only [forStep, if_pos hlt, h]
      cases g i t with
      | none => rfl
      | some t' => simpa using ih (i + step) t'
    · simp [forStep, hlt]

/-- The state the nest reaches is the innermost statement folded over the visits. -/
theorem blockedNest_eq_fold (fuel n bs : Nat) (body : Nat → Nat → Nat → σ → σ) (s : σ) :
    blockedNest fuel n bs body s
      = (blockedVisits fuel n bs).map
          (fun visits => visits.foldl (fun s t => body t.1 t.2.1 t.2.2 s) s) := by
  have key := forStep_comm
    (fun visits : List (Nat × Nat × Nat) =>
      visits.foldl (fun s t => body t.1 t.2.1 t.2.2 s) s) bs n
    (fun ii s =>
      forStep bs n (fun kk s =>
        forStep bs n (fun jj s =>
          some (forLoop ii (min (ii + bs) n) (fun i s =>
            forLoop kk (min (kk + bs) n) (fun k s =>
              forLoop jj (min (jj + bs) n) (fun j s => body i k j s) s) s) s)) fuel 0 s)
        fuel 0 s)
    (fun ii v =>
      forStep bs n (fun kk v =>
        forStep bs n (fun jj v =>
          some (forLoop ii (min (ii + bs) n) (fun i v =>
            forLoop kk (min (kk + bs) n) (fun k v =>
              forLoop jj (min (jj + bs) n) (fun j v => v ++ [(i, k, j)]) v) v) v)) fuel 0 v)
        fuel 0 v)
    ?_ fuel 0 []
  · exact key
  · intro ii v
    refine forStep_comm _ bs n _ _ ?_ fuel 0 v
    intro kk v
    refine forStep_comm _ bs n _ _ ?_ fuel 0 v
    intro jj v
    simp only [Option.map_some', Option.some.injEq]
    refine forLoop_comm _ _ _ ?_ _ _ v
    intro i v
    refine forLoop_comm _ _ _ ?_ _ _ v
    intro k v
    refine forLoop_comm _ _ _ ?_ _ _ v
    intro j v
    simp [List.foldl_append]

/-- The blocked multiplier is the nest with the update of cell `(i, j)` as its
innermost statement. -/
theorem blocked_eq_blockedNest {α : Type} [Add α] [Mul α] (fuel n bs : Nat)
    (A B C : Mat α) :
    blocked fuel n bs A B C
      = blockedNest fuel n bs
          (fun i k j C => C.set i j (C.coeff i j + A.coeff i k * B.coeff k j)) C := rfl

theorem KLog.ext_ks {a b : KLog} (h : a.ks = b.ks) : a = b := by
  cases a; cases b; simp only [KLog.mk.injEq]; exact h

theorem KLog.add_ks (a b : KLog) : (a + b).ks = a.ks ++ b.ks := rfl

theorem KLog.mul_eq (a b : KLog) : a * b = a := rfl

theorem kSequence_nil (i j : Nat) : kSequence [] i j = [] := rfl

theorem kSequence_cons (t : Nat × Nat × Nat) (vs : List (Nat × Nat × Nat)) (i j : Nat) :
    kSequence (t :: vs) i j
      = if t.1 = i ∧ t.2.2 = j then t.2.1 :: kSequence vs i j else kSequence vs i j := by
  unfold kSequence
  by_cases h : t.1 = i ∧ t.2.2 = j
  · simp [List.filter_cons, h]
  · simp [List.filter_cons, h]

/-- On logging scalars, folding the cell update over a list of visits appends to
each cell the `k` indices of the visits of that cell. -/
theorem fold_log_coeff (n : Nat) (vs : List (Nat × Nat × Nat)) (C : Mat KLog) (i j : Nat) :
    ((vs.foldl (fun C t => C.set t.1 t.2.2
        (C.coeff t.1 t.2.2 + (logA n).coeff t.1 t.2.1 * (logB n).coeff t.2.1 t.2.2)) C).coeff
      i j).ks
      = (C.coeff i j).ks ++ kSequence vs i j := by
  induction vs generalizing C with
  | nil => simp [kSequence_nil]
  | cons t rest ih =>
    rw [List.foldl_cons, ih, kSequence_cons]
    by_cases h : t.1 = i ∧ t.2.2 = j
    · obtain ⟨h1, h2⟩ := h
      subst h1 h2
      simp [Mat.set, logA, KLog.mul_eq, KLog.add_ks]
    · have h' : ¬ (i = t.1 ∧ j = t.2.2) := fun e => h ⟨e.1.symm, e.2.symm⟩
      simp [Mat.set, h, h']

/-- On logging scalars the accumulation loop appends `0, ..., m - 1`. -/
theorem dotLoop_log (n i j m : Nat) (s : KLog) :
    (dotLoop (logA n) (logB n) i j 0 m s).ks = s.ks ++ List.range m := by
  induction m with
  | zero => simp [dotLoop_of_le]
  | succ m ih =>
    rw [dotLoop_succ _ _ _ _ _ _ _ (Nat.zero_le m), KLog.add_ks, ih, KLog.mul_eq,
      List.range_succ]
    simp [logA]

/-- The visits of the blocked nest, cell by cell: with a positive block size the
nest ends, each cell of the `n × n` block is visited with `k = 0, ..., n - 1` in this
order, and no other cell is visited. -/
theorem blockedVisits_kSequence (n bs : Nat) (hbs : 0 < bs) (fuel : Nat) (hf : n ≤ fuel) :
    ∃ vs, blockedVisits fuel n bs = some vs ∧
      ∀ i j, kSequence vs i j = if i < n ∧ j < n then List.range n else [] := by
  have h1 := blocked_eq_patch (logA n) (logB n) n bs hbs fuel hf (Mat.uninit 0 n n)
  rw [blocked_eq_blockedNest, blockedNest_eq_fold] at h1
  cases hv : blockedVisits fuel n bs with
  | none => rw [hv] at h1; cases h1
  | some vs =>
    refine ⟨vs, rfl, fun i j => ?_⟩
    rw [hv] at h1
    simp only [Option.map_some', Option.some.injEq] at h1
    have h2 := fold_log_coeff n vs (Mat.uninit 0 n n) i j
    rw [h1] at h2
    simp only [Mat.patch, Mat.uninit] at h2
    by_cases hc : i < n ∧ j < n
    · rw [if_pos hc] at h2 ⊢
      rw [dotLoop_log] at h2
      have hz : (0 : KLog).ks = [] := rfl
      simp only [hz, List.nil_append] at h2
      exact h2.symm
    · rw [if_neg hc] at h2 ⊢
      have hz : (0 : KLog).ks = [] := rfl
      simp only [hz, List.nil_append] at h2
      exact h2.symm

theorem mem_kSequence (vs : List (Nat × Nat × Nat)) (i k j : Nat) :
    k ∈ kSequence vs i j ↔ (i, k, j) ∈ vs := by
  unfold kSequence
  simp only [List.mem_map, List.mem_filter, decide_eq_true_eq]
  constructor
  · rintro ⟨⟨a, b, c⟩, ⟨hm, h1, h2⟩, h3⟩
    simp only at h1 h2 h3
    subst h1 h2 h3
    exact hm
  · intro h
    exact ⟨(i, k, j), ⟨h, rfl, rfl⟩, rfl⟩

theorem nodup_of_kSequence (vs : List (Nat × Nat × Nat))
    (h : ∀ i j, (kSequence vs i j).Nodup) : vs.Nodup := by
  induction vs with
  | nil => exact List.nodup_nil
  | cons t rest ih =>
    obtain ⟨a, b, c⟩ := t
    have hcell := h a c
    rw [kSequence_cons, if_pos ⟨rfl, rfl⟩, List.nodup_cons] at hcell
    refine List.nodup_cons.mpr ⟨?_, ih (fun i j => ?_)⟩
    · intro hm
      exact hcell.1 ((mem_kSequence rest a b c).mpr hm)
    · have hij := h i j
      rw [kSequence_cons] at hij
      by_cases hc : a = i ∧ c = j
      · rw [if_pos hc] at hij
        exact (List.nodup_cons.mp hij).2
      · rw [if_neg hc] at hij
        exact hij

/-- The visits of the blocked nest are the index triples below `n`, each once. -/
theorem blockedVisits_once (n bs : Nat) (hbs : 0 < bs) (fuel : Nat) (hf : n ≤ fuel) :
    ∃ vs, blockedVisits fuel n bs = some vs ∧ vs.Nodup ∧
      ∀ i k j, (i, k, j) ∈ vs ↔ (i < n ∧ k < n ∧ j < n) := by
  obtain ⟨vs, hvs, hk⟩ := blockedVisits_kSequence n bs hbs fuel hf
  refine ⟨vs, hvs, ?_, ?_⟩
  · apply nodup_of_kSequence
    intro i j
    rw [hk]
    by_cases hc : i < n ∧ j < n
    · rw [if_pos hc]; exact List.nodup_range n
    · rw [if_neg hc]; exact List.nodup_nil
  · intro i k j
    rw [← mem_kSequence, hk]
    by_cases hc : i < n ∧ j < n
    · rw [if_pos hc, List.mem_range]
      exact ⟨fun h => ⟨hc.1, h, hc.2⟩, fun h => h.2.1⟩
    · rw [if_neg hc]
      simp only [List.not_mem_nil, false_iff]
      exact fun h => hc ⟨h.1, h.2.2⟩

end OrderLemmas

/-! ## The iteration order of the blocked nest: results -/

/-- C14, as stated, fails: there is no dimension, block size and cell for which the
`k` indices accumulated into the cell by the blocked nest come in another order
than `0, 1, ..., n - 1`, and there are no scalars (with any addition, associative or
not), matrices and block size for which the blocked nest on a zeroed buffer and the
naive triple loop give different results. -/
theorem blocked_order_not_different :
    (¬ ∃ (n bs fuel : Nat) (vs : List (Nat × Nat × Nat)) (i j : Nat),
        1 ≤ bs ∧ n ≤ fuel ∧ i < n ∧ j < n ∧
        blockedVisits fuel n bs = some vs ∧ kSequence vs i j ≠ List.range n) ∧
    (¬ ∃ (α : Type) (iz : Zero α) (ia : Add α) (im : Mul α) (n bs fuel : Nat)
        (A B C : Mat α), 1 ≤ bs ∧ n ≤ fuel ∧
        @blocked α ia im fuel n bs A B (@Mat.setZero α iz C)
          ≠ some (@naive α iz ia im n A B (@Mat.setZero α iz C))) := by
  constructor
  · rintro ⟨n, bs, fuel, vs, i, j, hbs, hf, hi, hj, hvs, hne⟩
    obtain ⟨vs', hvs', hk⟩ := blockedVisits_kSequence n bs hbs fuel hf
    rw [hvs] at hvs'
    cases hvs'
    exact hne (by rw [hk, if_pos ⟨hi, hj⟩])
  · rintro ⟨α, iz, ia, im, n, bs, fuel, A, B, C, hbs, hf, hne⟩
    apply hne
    rw [blocked_eq_patch A B n bs hbs fuel hf, naive_eq_patch]
    rfl

/-- C14, amended: the blocked multiplier sums the products of an output cell in the
same order as the naive multiplier. For every `n`, every block size `bs ≥ 1` and
every cell `(i, j)` of the `n × n` block, the `k` indices at which
`A(i, k) * B(k, j)` is accumulated into `C(i, j)` are `0, 1, ..., n - 1` in this order,
and on a zeroed buffer the blocked nest returns exactly what the naive triple loop
returns, for every addition and multiplication of the scalars, associative or not. -/
theorem blocked_order_eq_naive {α : Type} [Zero α] [Add α] [Mul α] (n bs fuel : Nat)
    (hbs : 1 ≤ bs) (hfuel : n ≤ fuel) (A B C : Mat α) :
    (∃ vs, blockedVisits fuel n bs = some vs ∧
      ∀ i j, i < n → j < n → kSequence vs i j = List.range n) ∧
    blocked fuel n bs A B C.setZero = some (naive n A B C.setZero) := by
  constructor
  · obtain ⟨vs, hvs, hk⟩ := blockedVisits_kSequence n bs hbs fuel hfuel
    exact ⟨vs, hvs, fun i j hi hj => by rw [hk, if_pos ⟨hi, hj⟩]⟩
  · rw [blocked_eq_patch A B n bs hbs fuel hfuel, naive_eq_patch]
    rfl

/-- C14, amended, applied with `n = 3`, block size `2` and scalars whose addition
`x ⊕ y = 2 * x + y` is not associative. -/
theorem blocked_order_eq_naive_witness :
    ((⟨1⟩ + ⟨0⟩ : Skew) + ⟨0⟩).val ≠ ((⟨1⟩ : Skew) + (⟨0⟩ + ⟨0⟩)).val ∧
    (∃ vs, blockedVisits 3 3 2 = some vs ∧
      ∀ i j, i < 3 → j < 3 → kSequence vs i j = List.range 3) ∧
    blocked 3 3 2 (skewMat 3) (skewMat 3) (Mat.uninit ⟨7⟩ 3 3).setZero
      = some (naive 3 (skewMat 3) (skewMat 3) (Mat.uninit ⟨7⟩ 3 3).setZero) :=
  ⟨by decide,
    blocked_order_eq_naive 3 2 3 (by decide) (by decide) (skewMat 3) (skewMat 3)
      (Mat.uninit ⟨7⟩ 3 3)⟩

/-- C18: the blocked loop nest visits every index triple `(i, k, j)` with
`i, k, j < n` exactly once and at each visit only adds `A(i, k) * B(k, j)` into
`C(i, j)`; in exact arithmetic, for every `n`, every block size `bs ≥ 1` and every
initial buffer `C0`, it ends with `C0 + A * B` in the `n × n` block (the other cells
are left alone), which is `A * B` when the buffer was zeroed. -/
theorem blocked_adds_product {α : Type} [Semiring α] (n bs fuel : Nat)
    (hbs : 1 ≤ bs) (hfuel : n ≤ fuel) (A B C0 : Mat α) :
    ∃ vs C, blockedVisits fuel n bs = some vs ∧ vs.Nodup ∧
      (∀ i k j, (i, k, j) ∈ vs ↔ (i < n ∧ k < n ∧ j < n)) ∧
      blocked fuel n bs A B C0 = some C ∧
      C = vs.foldl (fun C t =>
            C.set t.1 t.2.2 (C.coeff t.1 t.2.2 + A.coeff t.1 t.2.1 * B.coeff t.2.1 t.2.2)) C0 ∧
      C.rows = C0.rows ∧ C.cols = C0.cols ∧
      (∀ i j, i < n → j < n →
        C.coeff i j = C0.coeff i j + ∑ k in Finset.range n, A.coeff i k * B.coeff k j) ∧
      (∀ i j, ¬ (i < n ∧ j < n) → C.coeff i j = C0.coeff i j) ∧
      (∀ i j, i < n → j < n → C0.coeff i j = 0 →
        C.coeff i j = ∑ k in Finset.range n, A.coeff i k * B.coeff k j) := by
  obtain ⟨vs, hvs, hnd, hmem⟩ := blockedVisits_once n bs hbs fuel hfuel
  have hp := blocked_eq_patch A B n bs hbs fuel hfuel C0
  have hfold := hp
  rw [blocked_eq_blockedNest, blockedNest_eq_fold, hvs] at hfold
  simp only [Option.map_some', Option.some.injEq] at hfold
  have hcell : ∀ i j, i < n → j < n →
      (C0.patch (fun r c => r < n ∧ c < n)
        (fun r c => dotLoop A B r c 0 n (C0.coeff r c))).coeff i j
        = C0.coeff i j + ∑ k in Finset.range n, A.coeff i k * B.coeff k j := by
    intro i j hi hj
    simp only [Mat.patch]
    rw [if_pos ⟨hi, hj⟩, dotLoop_eq_add_sum]
  refine ⟨vs, _, hvs, hnd, hmem, hp, hfold.symm, rfl, rfl, hcell, ?_, ?_⟩
  · intro i j hij
    simp only [Mat.patch]
    rw [if_neg hij]
  · intro i j hi hj h0
    rw [hcell i j hi hj, h0, zero_add]

/-- C18, applied with `n = 3` and block size `2` on a buffer full of `8`. -/
theorem blocked_adds_product_witness :
    ∃ C, blocked 3 3 2 (unitAt 3 0 2) (unitAt 3 2 1) (Mat.uninit 8 3 3) = some C ∧
      C.coeff 0 1 = 8 + ∑ k in Finset.range 3, (unitAt 3 0 2).coeff 0 k * (unitAt 3 2 1).coeff k 1 ∧
      C.coeff 0 1 = 9 := by
  obtain ⟨vs, C, _, _, _, hC, _, _, _, hcell, _, _⟩ :=
    @blocked_adds_product Int _ 3 2 3 (by decide) (by decide) (unitAt 3 0 2) (unitAt 3 2 1)
      (Mat.uninit 8 3 3)
  refine ⟨C, ?_, ?_, ?_⟩
  · exact hC
  · exact hcell 0 1 (by decide) (by decide)
  · rw [hcell 0 1 (by decide) (by decide)]
    decide

end MM

/-! ## Strassen's recursion on odd dimensions -/

namespace MM

section StrassenOdd

variable {α : Type} [Ring α]

/-- Above the leaf threshold `strassen` is one recursion step around itself. -/
theorem strassen_rec (junk : α) (A B : Mat α) (h : ¬ A.rows ≤ LEAF_SIZE) :
    strassen junk A B = strassenStep junk (strassen junk) A B := by
  rw [strassen, dif_neg h]
  rfl

theorem Mat.add_coeff (X Y : Mat α) (i j : Nat) :
    (X.add Y).coeff i j = X.coeff i j + Y.coeff i j := rfl

theorem Mat.sub_coeff (X Y : Mat α) (i j : Nat) :
    (X.sub Y).coeff i j = X.coeff i j - Y.coeff i j := rfl

theorem Mat.AgreeOn.add {X X' Y Y' : Mat α} (hX : X.AgreeOn X') (hY : Y.AgreeOn Y')
    (hr : X.rows = Y.rows) (hc : X.cols = Y.cols) : (X.add Y).AgreeOn (X'.add Y') := by
  refine ⟨hX.1, hX.2.1, fun i j hi hj => ?_⟩
  rw [Mat.add_coeff, Mat.add_coeff, hX.2.2 i j hi hj,
    hY.2.2 i j (by rw [← hr]; exact hi) (by rw [← hc]; exact hj)]

theorem Mat.AgreeOn.sub {X X' Y Y' : Mat α} (hX : X.AgreeOn X') (hY : Y.AgreeOn Y')
    (hr : X.rows = Y.rows) (hc : X.cols = Y.cols) : (X.sub Y).AgreeOn (X'.sub Y') := by
  refine ⟨hX.1, hX.2.1, fun i j hi hj => ?_⟩
  rw [Mat.sub_coeff, Mat.sub_coeff, hX.2.2 i j hi hj,
    hY.2.2 i j (by rw [← hr]; exact hi) (by rw [← hc]; exact hj)]

/-- One recursion step gives the same matrix on two pairs of operands of the same
height whose four corners agree, when the function used for the seven products
respects agreement on the half dimension. -/
theorem strassenStep_congr (junk : α) (rec rec' : Mat α → Mat α → Mat α)
    (A A' B B' : Mat α) (hr : A.rows = A'.rows)
    (hA11 : (A.topLeftCorner (A.rows / 2) (A.rows / 2)).AgreeOn
      (A'.topLeftCorner (A.rows / 2) (A.rows / 2)))
    (hA12 : (A.topRightCorner (A.rows / 2) (A.rows / 2)).AgreeOn
      (A'.topRightCorner (A.rows / 2) (A.rows / 2)))
    (hA21 : (A.bottomLeftCorner (A.rows / 2) (A.rows / 2)).AgreeOn
      (A'.bottomLeftCorner (A.rows / 2) (A.rows / 2)))
    (hA22 : (A.bottomRightCorner (A.rows / 2) (A.rows / 2)).AgreeOn
      (A'.bottomRightCorner (A.rows / 2) (A.rows / 2)))
    (hB11 : (B.topLeftCorner (A.rows / 2) (A.rows / 2)).AgreeOn
      (B'.topLeftCorner (A.rows / 2) (A.rows / 2)))
    (hB12 : (B.topRightCorner (A.rows / 2) (A.rows / 2)).AgreeOn
      (B'.topRightCorner (A.rows / 2) (A.rows / 2)))
    (hB21 : (B.bottomLeftCorner (A.rows / 2) (A.rows / 2)).AgreeOn
      (B'.bottomLeftCorner (A.rows / 2) (A.rows / 2)))
    (hB22 : (B.bottomRightCorner (A.rows / 2) (A.rows / 2)).AgreeOn
      (B'.bottomRightCorner (A.rows / 2) (A.rows / 2)))
    (hrec : ∀ X X' Y Y' : Mat α, X.IsSquare (A.rows / 2) → Y.IsSquare (A.rows / 2) →
      X.AgreeOn X' → Y.AgreeOn Y' → ∀ i j, i < A.rows / 2 → j < A.rows / 2 →
        (rec X Y).coeff i j = (rec' X' Y').coeff i j) :
    strassenStep junk rec A B = strassenStep junk rec' A' B' := by
  have e1 := hrec _ _ _ _ ⟨rfl, rfl⟩ ⟨rfl, rfl⟩ (hA11.add hA22 rfl rfl) (hB11.add hB22 rfl rfl)
  have e2 := hrec _ _ _ _ ⟨rfl, rfl⟩ ⟨rfl, rfl⟩ (hA21.add hA22 rfl rfl) hB11
  have e3 := hrec _ _ _ _ ⟨rfl, rfl⟩ ⟨rfl, rfl⟩ hA11 (hB12.sub hB22 rfl rfl)
  have e4 := hrec _ _ _ _ ⟨rfl, rfl⟩ ⟨rfl, rfl⟩ hA22 (hB21.sub hB11 rfl rfl)
  have e5 := hrec _ _ _ _ ⟨rfl, rfl⟩ ⟨rfl, rfl⟩ (hA11.add hA12 rfl rfl) hB22
  have e6 := hrec _ _ _ _ ⟨rfl, rfl⟩ ⟨rfl, rfl⟩ (hA21.sub hA11 rfl rfl) (hB11.add hB12 rfl rfl)
  have e7 := hrec _ _ _ _ ⟨rfl, rfl⟩ ⟨rfl, rfl⟩ (hA12.sub hA22 rfl rfl) (hB21.add hB22 rfl rfl)
  unfold strassenStep
  simp only [← hr]
  refine Mat.ext_cells rfl rfl (fun i j => ?_)
  simp only [Mat.setBlock, Mat.uninit]
  split_ifs with c1 c2 c3 c4
  · simp only [Mat.add_coeff, Mat.sub_coeff]
    rw [e1 _ _ (by omega) (by omega), e2 _ _ (by omega) (by omega),
      e3 _ _ (by omega) (by omega), e6 _ _ (by omega) (by omega)]
  · simp only [Mat.add_coeff, Mat.sub_coeff]
    rw [e2 _ _ (by omega) (by omega), e4 _ _ (by omega) (by omega)]
  · simp only [Mat.add_coeff, Mat.sub_coeff]
    rw [e3 _ _ (by omega) (by omega), e5 _ _ (by omega) (by omega)]
  · simp only [Mat.add_coeff, Mat.sub_coeff]
    rw [e1 _ _ (by omega) (by omega), e4 _ _ (by omega) (by omega),
      e5 _ _ (by omega) (by omega), e7 _ _ (by omega) (by omega)]
  · rfl

/-- The four `m × m` corners of two `n × n` matrices agree when the matrices agree
on the rows and columns the corners are cut from. -/
theorem corners_agree {β : Type} (A A' : Mat β) (n m : Nat) (hA : A.IsSquare n)
    (hA' : A'.IsSquare n)
    (hm : m ≤ n)
    (h : ∀ i j, i < n → j < n → (i < m ∨ n - m ≤ i) → (j < m ∨ n - m ≤ j) →
      A.coeff i j = A'.coeff i j) :
    (A.topLeftCorner m m).AgreeOn (A'.topLeftCorner m m) ∧
    (A.topRightCorner m m).AgreeOn (A'.topRightCorner m m) ∧
    (A.bottomLeftCorner m m).AgreeOn (A'.bottomLeftCorner m m) ∧
    (A.bottomRightCorner m m).AgreeOn (A'.bottomRightCorner m m) := by
  obtain ⟨hr, hc⟩ := hA
  obtain ⟨hr', hc'⟩ := hA'
  refine ⟨⟨rfl, rfl, fun i j hi hj => ?_⟩, ⟨rfl, rfl, fun i j hi hj => ?_⟩,
    ⟨rfl, rfl, fun i j hi hj => ?_⟩, ⟨rfl, rfl, fun i j hi hj => ?_⟩⟩
  all_goals
    simp only [Mat.topLeftCorner, Mat.topRightCorner, Mat.bottomLeftCorner,
      Mat.bottomRightCorner, Mat.block, hr, hc, hr', hc'] at hi hj ⊢
    apply h <;> omega

/-- The cells of `strassen A B` within its shape depend on the cells of `A` and `B`
within theirs only. -/
theorem strassen_agree (junk : α) (n : Nat) :
    ∀ A A' B B' : Mat α, A.IsSquare n → B.IsSquare n → A.AgreeOn A' → B.AgreeOn B' →
      ∀ i j, i < n → j < n →
        (strassen junk A B).coeff i j = (strassen junk A' B').coeff i j := by
  induction n using Nat.strong_induction_on with
  | _ n ih =>
    intro A A' B B' hA hB hAA hBB i j hi hj
    have hA' : A'.IsSquare n := ⟨by rw [← hAA.1]; exact hA.1, by rw [← hAA.2.1]; exact hA.2⟩
    have hB' : B'.IsSquare n := ⟨by rw [← hBB.1]; exact hB.1, by rw [← hBB.2.1]; exact hB.2⟩
    by_cases hl : A.rows ≤ LEAF_SIZE
    · rw [strassen_leaf junk A B hl, strassen_leaf junk A' B' (by rw [← hAA.1]; exact hl)]
      simp only [Mat.mul, ← hAA.2.1]
      refine Finset.sum_congr rfl (fun k hk => ?_)
      have hk' : k < A.cols := Finset.mem_range.mp hk
      rw [hAA.2.2 i k (by rw [hA.1]; exact hi) hk',
        hBB.2.2 k j (by rw [hB.1, ← hA.2]; exact hk') (by rw [hB.2]; exact hj)]
    · have hl' : ¬ A'.rows ≤ LEAF_SIZE := by rw [← hAA.1]; exact hl
      rw [strassen_rec junk A B hl, strassen_rec junk A' B' hl']
      have hn : A.rows = n := hA.1
      have hmid : A.rows / 2 < n := by simp only [LEAF_SIZE] at hl; omega
      obtain ⟨a1, a2, a3, a4⟩ := corners_agree A A' n (A.rows / 2) hA hA' (by omega)
        (fun r c hr hc _ _ => hAA.2.2 r c (by rw [hA.1]; exact hr) (by rw [hA.2]; exact hc))
      obtain ⟨b1, b2, b3, b4⟩ := corners_agree B B' n (A.rows / 2) hB hB' (by omega)
        (fun r c hr hc _ _ => hBB.2.2 r c (by rw [hB.1]; exact hr) (by rw [hB.2]; exact hc))
      rw [strassenStep_congr junk (strassen junk) (strassen junk) A A' B B' hAA.1
        a1 a2 a3 a4 b1 b2 b3 b4
        (fun X X' Y Y' hX hY hXX hYY r c hr hc =>
          ih (A.rows / 2) hmid X X' Y Y' hX hY hXX hYY r c hr hc)]

/-- For an odd dimension above the leaf threshold, `strassen` never reads row
`n / 2` or column `n / 2` of its operands: operands that agree elsewhere give the
same result. -/
theorem strassen_odd_indep (junk : α) (n : Nat) (hn : LEAF_SIZE < n) (hodd : n % 2 = 1)
    (A A' B B' : Mat α) (hA : A.IsSquare n) (hA' : A'.IsSquare n) (hB : B.IsSquare n)
    (hB' : B'.IsSquare n)
    (hAA : ∀ i j, i < n → j < n → i ≠ n / 2 → j ≠ n / 2 → A.coeff i j = A'.coeff i j)
    (hBB : ∀ i j, i < n → j < n → i ≠ n / 2 → j ≠ n / 2 → B.coeff i j = B'.coeff i j) :
    strassen junk A B = strassen junk A' B' := by
  have hl : ¬ A.rows ≤ LEAF_SIZE := by rw [hA.1]; omega
  have hl' : ¬ A'.rows ≤ LEAF_SIZE := by rw [hA'.1]; omega
  have hr : A.rows = A'.rows := by rw [hA.1, hA'.1]
  have hn' : A.rows = n := hA.1
  rw [strassen_rec junk A B hl, strassen_rec junk A' B' hl']
  obtain ⟨a1, a2, a3, a4⟩ := corners_agree A A' n (A.rows / 2) hA hA' (by omega)
    (fun r c h1 h2 h3 h4 => hAA r c h1 h2 (by omega) (by omega))
  obtain ⟨b1, b2, b3, b4⟩ := corners_agree B B' n (A.rows / 2) hB hB' (by omega)
    (fun r c h1 h2 h3 h4 => hBB r c h1 h2 (by omega) (by omega))
  exact strassenStep_congr junk (strassen junk) (strassen junk) A A' B B' hr
    a1 a2 a3 a4 b1 b2 b3 b4
    (fun X X' Y Y' hX hY hXX hYY r c h1 h2 =>
      strassen_agree junk (A.rows / 2) X X' Y Y' hX hY hXX hYY r c h1 h2)

end StrassenOdd

/-- C17: for an odd dimension `n > LEAF_SIZE`, `strassen` returns an `n × n` matrix
(it does not fail) computed with `n / 2` rounded down, without reading row `n / 2` or
column `n / 2` of `A` or `B`: operands that differ there only give the same result.
So the result is not the product: for the 65 x 65 matrices `A`, zero except
`A(0, 32) = 1`, and `B`, zero except `B(32, 0) = 1`, cell `(0, 0)` of `strassen A B`
is `0` while cell `(0, 0)` of `A * B` is `1`. -/
theorem strassen_odd_drops_middle :
    (∀ (α : Type) [Ring α] (junk : α) (n : Nat) (A A' B B' : Mat α),
      LEAF_SIZE < n → n % 2 = 1 →
      A.IsSquare n → A'.IsSquare n → B.IsSquare n → B'.IsSquare n →
      (∀ i j, i < n → j < n → i ≠ n / 2 → j ≠ n / 2 → A.coeff i j = A'.coeff i j) →
      (∀ i j, i < n → j < n → i ≠ n / 2 → j ≠ n / 2 → B.coeff i j = B'.coeff i j) →
      strassen junk A B = strassen junk A' B' ∧ (strassen junk A B).IsSquare n) ∧
    (unitAt 65 0 32).IsSquare 65 ∧ (unitAt 65 32 0).IsSquare 65 ∧
    (∀ junk : Int, (strassen junk (unitAt 65 0 32) (unitAt 65 32 0)).coeff 0 0 = 0) ∧
    ((unitAt 65 0 32).mul (unitAt 65 32 0)).coeff 0 0 = 1 := by
  refine ⟨?_, ⟨rfl, rfl⟩, ⟨rfl, rfl⟩, ?_, ?_⟩
  · intro α _ junk n A A' B B' hn hodd hA hA' hB hB' hAA hBB
    exact ⟨strassen_odd_indep junk n hn hodd A A' B B' hA hA' hB hB' hAA hBB,
      strassen_isSquare junk n A B hA hB⟩
  · intro junk
    apply strassen_65_zero junk _ _ ⟨rfl, rfl⟩ ⟨rfl, rfl⟩
    intro i j _ hj
    simp only [unitAt]
    rw [if_neg (fun h => hj h.2)]
  · simp only [Mat.mul, unitAt]
    rw [Finset.sum_eq_single 32]
    · simp
    · intro k _ hk
      simp [hk]
    · intro h
      exact absurd (Finset.mem_range.mpr (by omega)) h

/-- C17, applied at dimension 65: clearing the left operand, which differs from
zero in column 32 only, does not change the result. -/
theorem strassen_odd_drops_middle_witness :
    LEAF_SIZE < 65 ∧ 65 % 2 = 1 ∧
    (unitAt 65 0 32).coeff 0 32 ≠ (unitAt 65 0 32).setZero.coeff 0 32 ∧
    strassen 0 (unitAt 65 0 32) (unitAt 65 32 0)
      = strassen 0 (unitAt 65 0 32).setZero (unitAt 65 32 0) := by
  refine ⟨by decide, by decide, by decide, ?_⟩
  refine (strassen_odd_drops_middle.1 Int 0 65 (unitAt 65 0 32) (unitAt 65 0 32).setZero
    (unitAt 65 32 0) (unitAt 65 32 0) (by decide) (by decide) ⟨rfl, rfl⟩ ⟨rfl, rfl⟩
    ⟨rfl, rfl⟩ ⟨rfl, rfl⟩ ?_ (fun _ _ _ _ _ _ => rfl)).1
  intro i j _ _ _ hj
  simp only [unitAt, Mat.setZero]
  rw [if_neg (fun h => hj (by simpa using h.2))]

end MM

/-! ## The results logger: lemmas and results -/

namespace MM

section LoggerLemmas

theorem foldl_rowLine (rows : List ResultRow) (out : List Char) :
    rows.foldl (fun out r => out ++ rowLine r) out = out ++ rowLines rows := by
  induction rows generalizing out with
  | nil => simp [rowLines]
  | cons r rs ih => simp [List.foldl_cons, ih, rowLines, List.append_assoc]

theorem rowLines_append (r1 r2 : List ResultRow) :
    rowLines (r1 ++ r2) = rowLines r1 ++ rowLines r2 := by
  induction r1 with
  | nil => simp [rowLines]
  | cons r rs ih => simp [rowLines, ih, List.append_assoc]

theorem FileSys.read_write_same (fs : FileSys) (path : String) (content : List Char) :
    (fs.write path content).read path = some content := by
  simp [FileSys.write]

theorem FileSys.read_write_other (fs : FileSys) (path p : String) (content : List Char)
    (h : p ≠ path) : (fs.write path content).read p = fs.read p := by
  simp [FileSys.write, h]

/-- The logger on a writable path: the file ends up with its old content (nothing
when the file could not be read), then the header when the file could not be read,
then the lines of the rows. -/
theorem append_results_csv_ok (fs : FileSys) (path : String) (rows : List ResultRow)
    (hw : fs.writable path = true) :
    append_results_csv fs path rows
      = .ok (fs.write path
          (((fs.read path).getD [] ++ if (fs.read path).isSome = false then csvHeader else [])
            ++ rowLines rows)) := by
  simp only [append_results_csv, hw]
  rw [foldl_rowLine]
  cases fs.read path <;> simp

/-- The logger on a path that cannot be opened for writing raises and changes
nothing. -/
theorem append_results_csv_error (fs : FileSys) (path : String) (rows : List ResultRow)
    (hw : fs.writable path = false) :
    append_results_csv fs path rows = .error .cannotOpen := by
  simp [append_results_csv, hw]

end LoggerLemmas

/-- C12: for every list of result rows (the empty list included), on a path where no
file exists (and that can be opened for writing) `append_results_csv` leaves a file
whose content is exactly the header line `language,algorithm,n,rep,time_s` followed
by one line per row, the five fields of the row joined by commas, in the order of
the rows; no other file changes. -/
theorem append_results_csv_new_file (fs : FileSys) (path : String) (rows : List ResultRow)
    (hnew : fs.read path = none) (hw : fs.writable path = true) :
    ∃ fs', append_results_csv fs path rows = .ok fs' ∧
      fs'.read path = some (csvHeader ++ rowLines rows) ∧
      (∀ p, p ≠ path → fs'.read p = fs.read p) ∧
      csvHeader = "language,algorithm,n,rep,time_s\n".data ∧
      rowLines [] = [] ∧
      (∀ r rs, rowLines (r :: rs) = rowLine r ++ rowLines rs) ∧
      (∀ r : ResultRow, rowLine r
        = (String.intercalate "," [r.language, r.algorithm, r.n, r.rep, r.time_s]
            ++ "\n").data) := by
  refine ⟨_, append_results_csv_ok fs path rows hw, ?_, ?_, rfl, rfl, fun _ _ => rfl, ?_⟩
  · rw [FileSys.read_write_same, hnew]
    simp
  · intro p hp
    exact FileSys.read_write_other fs path p _ hp
  · intro r
    simp [rowLine, String.intercalate, String.intercalate.go]

/-- C12, applied: two rows logged where no results file exists. -/
theorem append_results_csv_new_file_witness :
    benchFiles.read "results_cpp.csv" = none ∧
    ∃ fs', append_results_csv benchFiles "results_cpp.csv"
        [⟨"C++", "naive", "1024", "1", "0.5"⟩, ⟨"C++", "naive", "1024", "2", "0.25"⟩]
        = .ok fs' ∧
      fs'.read "results_cpp.csv"
        = some ("language,algorithm,n,rep,time_s\n"
            ++ "C++,naive,1024,1,0.5\n" ++ "C++,naive,1024,2,0.25\n").data := by
  refine ⟨by decide, ?_⟩
  obtain ⟨fs', h1, h2, _⟩ := append_results_csv_new_file benchFiles "results_cpp.csv"
    [⟨"C++", "naive", "1024", "1", "0.5"⟩, ⟨"C++", "naive", "1024", "2", "0.25"⟩]
    (by decide) rfl
  refine ⟨fs', h1, ?_⟩
  rw [h2]
  decide

/-- C13: on a path that can be opened for writing, for every existing file content
and every list of rows `append_results_csv` leaves the file as the old content,
unchanged, followed by the lines of the rows and no header; hence two successive calls
with rows `r1` then `r2` on a path where no file existed leave the header once, then
the lines of `r1`, then the lines of `r2`. -/
theorem append_results_csv_existing (fs : FileSys) (path : String)
    (hw : fs.writable path = true) :
    (∀ (old : List Char) (rows : List ResultRow), fs.read path = some old →
      ∃ fs', append_results_csv fs path rows = .ok fs' ∧
        fs'.read path = some (old ++ rowLines rows) ∧
        (∀ p, p ≠ path → fs'.read p = fs.read p)) ∧
    (∀ r1 r2 : List ResultRow, fs.read path = none →
      ∃ fs1 fs2, append_results_csv fs path r1 = .ok fs1 ∧
        append_results_csv fs1 path r2 = .ok fs2 ∧
        fs2.read path = some (csvHeader ++ rowLines r1 ++ rowLines r2)) := by
  constructor
  · intro old rows hold
    refine ⟨_, append_results_csv_ok fs path rows hw, ?_, ?_⟩
    · rw [FileSys.read_write_same, hold]
      simp
    · intro p hp
      exact FileSys.read_write_other fs path p _ hp
  · intro r1 r2 hnew
    have hw1 : ∀ c, (fs.write path c).writable path = true := fun _ => hw
    refine ⟨_, _, append_results_csv_ok fs path r1 hw,
      append_results_csv_ok _ path r2 (hw1 _), ?_⟩
    rw [FileSys.read_write_same, FileSys.read_write_same, hnew]
    simp

/-- C13, applied: a row appended to a results file that holds the header and one
row. -/
theorem append_results_csv_existing_witness :
    ∃ fs', append_results_csv
        (benchFiles.write "r.csv" "language,algorithm,n,rep,time_s\nC++,naive,1024,1,0.5\n".data)
        "r.csv" [⟨"C++", "naive", "1024", "2", "0.25"⟩] = .ok fs' ∧
      fs'.read "r.csv"
        = some ("language,algorithm,n,rep,time_s\nC++,naive,1024,1,0.5\n"
            ++ "C++,naive,1024,2,0.25\n").data := by
  obtain ⟨fs', h1, h2, _⟩ := (append_results_csv_existing
    (benchFiles.write "r.csv" "language,algorithm,n,rep,time_s\nC++,naive,1024,1,0.5\n".data)
    "r.csv" rfl).1 "language,algorithm,n,rep,time_s\nC++,naive,1024,1,0.5\n".data
    [⟨"C++", "naive", "1024", "2", "0.25"⟩] (by decide)
  refine ⟨fs', h1, ?_⟩
  rw [h2]
  decide

end MM

/-! ## The benchmark driver: lemmas and results -/

namespace MM

section DriverLemmas

variable {α : Type}

/-- The loader succeeds on a file with at least `n` lines whose reachable fields
all parse. -/
theorem load_matrix_csv_ok_of (stod : List Char → Option α) (n : Nat) (content : List Char)
    (hlen : n ≤ (getlines newline content).length)
    (hcells : ∀ line ∈ (getlines newline content).take n,
      ∀ cell ∈ cutFields n line, stod cell ≠ none) :
    ∃ M, load_matrix_csv stod (some content) n = .ok M := by
  have hre := readRows_error_iff stod n (getlines newline content) 0 (Mat.uninit none n n)
  rw [Nat.sub_zero] at hre
  simp only [load_matrix_csv]
  cases hr : readRows stod n (getlines newline content) 0 (Mat.uninit none n n) with
  | error err =>
    obtain ⟨line, hl, cell, hc, hbad⟩ := hre.mp ⟨err, hr⟩
    exact absurd hbad (hcells line hl cell hc)
  | ok p =>
    obtain ⟨i', M'⟩ := p
    have hidx := readRows_ok_index stod n _ 0 _ i' M' (Nat.zero_le n) hr
    have hn : ¬ i' ≠ n := by omega
    exact ⟨M', by simp only [if_neg hn]⟩

theorem not_mem_terminated_ones (d c : Char) (hd : c ≠ d) (hc : c ∉ "1".data)
    (k : Nat) : c ∉ terminated d (List.replicate k "1".data) := by
  induction k with
  | zero => simp [terminated]
  | succ m ih =>
    simp only [List.replicate_succ, terminated, List.mem_append, List.mem_cons, not_or]
    refine ⟨⟨?_, List.not_mem_nil c⟩, hd, ih⟩
    intro h
    exact hc (by rw [h]; decide)

/-- The file of ones loads as an `n × n` matrix. -/
theorem load_onesFile (n : Nat) : ∃ M, load_matrix_csv stodRat (some (onesFile n)) n = .ok M := by
  have hlines : getlines newline (onesFile n)
      = List.replicate n (terminated comma (List.replicate n "1".data)) := by
    unfold onesFile
    apply getlines_terminated
    intro p hp
    rw [List.eq_of_mem_replicate hp]
    exact not_mem_terminated_ones comma newline (by decide) (by decide) n
  have hfields : getlines comma (terminated comma (List.replicate n "1".data))
      = List.replicate n "1".data := by
    apply getlines_terminated
    intro p hp
    rw [List.eq_of_mem_replicate hp]
    decide
  apply load_matrix_csv_ok_of
  · rw [hlines, List.length_replicate]
  · intro line hl cell hc
    rw [hlines] at hl
    have hline := List.eq_of_mem_replicate (List.mem_of_mem_take hl)
    rw [hline] at hc
    unfold cutFields at hc
    rw [hfields] at hc
    rw [List.eq_of_mem_replicate (List.mem_of_mem_take hc)]
    decide

/-- The repetition loop collects the time and the row of repetitions `1, ..., reps`
in this order. -/
theorem repetitions_eq (to_string : α → String) (algorithm : String) (elapsed : Nat → α)
    (reps : Int) :
    repetitions to_string algorithm elapsed reps
      = ((List.range reps.toNat).map (fun i => elapsed (i + 1)),
         (List.range reps.toNat).map (fun i =>
            (⟨LANGUAGE, algorithm, toString N, toString (i + 1),
              to_string (elapsed (i + 1))⟩ : ResultRow))) := by
  unfold repetitions
  generalize reps.toNat = k
  induction k with
  | zero => simp [forLoop_of_le]
  | succ m ih =>
    rw [forLoop_succ 1 (m + 1) _ _ (by omega), ih, List.range_succ]
    simp

variable [LinearOrderedField α]

/-- A run whose arguments parse, whose two matrices load, whose repetition count is
not negative and whose results file can be written exits with code 0. -/
theorem main_ok (stod : List Char → Option α) (stoi : String → Option Int)
    (to_string : α → String) (sqrt : α → α) (algorithm : String) (elapsed : Nat → α)
    (argv : List String) (fs : FileSys) (reps : Int) (csv : String)
    (MA MB : Mat (Option α)) (fs' : FileSys)
    (hargs : parse_args stoi argv = some (reps, csv))
    (hA : load_matrix_csv stod (fs.read "A_1024.csv") N = .ok MA)
    (hB : load_matrix_csv stod (fs.read "B_1024.csv") N = .ok MB)
    (hreps : 0 ≤ reps)
    (hlog : append_results_csv fs csv (repetitions to_string algorithm elapsed reps).2
      = .ok fs') :
    main stod stoi to_string sqrt algorithm elapsed argv fs
      = ⟨.exited 0, [], fs', [(csv, (repetitions to_string algorithm elapsed reps).2)],
          [(repetitions to_string algorithm elapsed reps).1],
          some (compute_stats sqrt (repetitions to_string algorithm elapsed reps).1)⟩ := by
  have hr : ¬ reps < 0 := by omega
  simp only [main, hargs, hA, hB, if_neg hr, hlog]

/-- A run whose arguments parse ends in one of five ways. -/
theorem main_cases (stod : List Char → Option α) (stoi : String → Option Int)
    (to_string : α → String) (sqrt : α → α) (algorithm : String) (elapsed : Nat → α)
    (argv : List String) (fs : FileSys) (reps : Int) (csv : String)
    (hargs : parse_args stoi argv = some (reps, csv)) :
    (∃ e, load_matrix_csv stod (fs.read "A_1024.csv") N = .error e ∧
      main stod stoi to_string sqrt algorithm elapsed argv fs
        = ⟨.exited 1, [.load e], fs, [], [], none⟩) ∨
    (∃ e, (∃ MA, load_matrix_csv stod (fs.read "A_1024.csv") N = .ok MA) ∧
      load_matrix_csv stod (fs.read "B_1024.csv") N = .error e ∧
      main stod stoi to_string sqrt algorithm elapsed argv fs
        = ⟨.exited 1, [.load e], fs, [], [], none⟩) ∨
    ((∃ MA, load_matrix_csv stod (fs.read "A_1024.csv") N = .ok MA) ∧
      (∃ MB, load_matrix_csv stod (fs.read "B_1024.csv") N = .ok MB) ∧ reps < 0 ∧
      main stod stoi to_string sqrt algorithm elapsed argv fs
        = ⟨.exited 1, [.reserve], fs, [], [], none⟩) ∨
    (∃ e, (∃ MA, load_matrix_csv stod (fs.read "A_1024.csv") N = .ok MA) ∧
      (∃ MB, load_matrix_csv stod (fs.read "B_1024.csv") N = .ok MB) ∧ 0 ≤ reps ∧
      append_results_csv fs csv (repetitions to_string algorithm elapsed reps).2 = .error e ∧
      main stod stoi to_string sqrt algorithm elapsed argv fs
        = ⟨.exited 1, [.log e], fs,
            [(csv, (repetitions to_string algorithm elapsed reps).2)], [], none⟩) ∨
    (∃ fs', (∃ MA, load_matrix_csv stod (fs.read "A_1024.csv") N = .ok MA) ∧
      (∃ MB, load_matrix_csv stod (fs.read "B_1024.csv") N = .ok MB) ∧ 0 ≤ reps ∧
      append_results_csv fs csv (repetitions to_string algorithm elapsed reps).2 = .ok fs' ∧
      main stod stoi to_string sqrt algorithm elapsed argv fs
        = ⟨.exited 0, [], fs', [(csv, (repetitions to_string algorithm elapsed reps).2)],
            [(repetitions to_string algorithm elapsed reps).1],
            some (compute_stats sqrt (repetitions to_string algorithm elapsed reps).1)⟩) := by
  cases hA : load_matrix_csv stod (fs.read "A_1024.csv") N with
  | error e => exact Or.inl ⟨e, rfl, by simp only [main, hargs, hA]⟩
  | ok MA =>
    cases hB : load_matrix_csv stod (fs.read "B_1024.csv") N with
    | error e => exact Or.inr (Or.inl ⟨e, ⟨MA, rfl⟩, rfl, by simp only [main, hargs, hA, hB]⟩)
    | ok MB =>
      by_cases hr : reps < 0
      · exact Or.inr (Or.inr (Or.inl ⟨⟨MA, rfl⟩, ⟨MB, rfl⟩, hr,
          by simp only [main, hargs, hA, hB, if_pos hr]⟩))
      · cases hlog : append_results_csv fs csv
            (repetitions to_string algorithm elapsed reps).2 with
        | error e =>
          exact Or.inr (Or.inr (Or.inr (Or.inl ⟨e, ⟨MA, rfl⟩, ⟨MB, rfl⟩, by omega, rfl,
            by simp only [main, hargs, hA, hB, if_neg hr, hlog]⟩)))
        | ok fs' =>
          exact Or.inr (Or.inr (Or.inr (Or.inr ⟨fs', ⟨MA, rfl⟩, ⟨MB, rfl⟩, by omega, rfl,
            main_ok stod stoi to_string sqrt algorithm elapsed argv fs reps csv MA MB fs'
              hargs hA hB (by omega) hlog⟩)))

end DriverLemmas

/-- C15 fails on the code for the repetition count: `parse_args` is called before the
`try` block of `main`, so when `std::stoi` rejects the first argument (here `abc`)
the exception leaves `main` and the run is ended by `std::terminate`, not by
`return 1`. For the other failures the claim holds: a run whose arguments parse exits
with code 0 and an empty error stream, or with code 1 and one line on the error
stream. -/
theorem main_bad_count_terminates {α : Type} [LinearOrderedField α]
    (stod : List Char → Option α) (to_string : α → String) (sqrt : α → α)
    (algorithm : String) (elapsed : Nat → α) (fs : FileSys) :
    stoiDec "abc" = none ∧
    parse_args stoiDec ["cpp_strassen", "abc"] = none ∧
    (main stod stoiDec to_string sqrt algorithm elapsed ["cpp_strassen", "abc"] fs).status
      = .terminated ∧
    (main stod stoiDec to_string sqrt algorithm elapsed ["cpp_strassen", "abc"] fs).status
      ≠ .exited 1 ∧
    (∀ (stoi : String → Option Int) (argv : List String) (reps : Int) (csv : String),
      parse_args stoi argv = some (reps, csv) →
        ((main stod stoi to_string sqrt algorithm elapsed argv fs).status = .exited 0 ∧
          (main stod stoi to_string sqrt algorithm elapsed argv fs).cerr = []) ∨
        ((main stod stoi to_string sqrt algorithm elapsed argv fs).status = .exited 1 ∧
          ∃ e, (main stod stoi to_string sqrt algorithm elapsed argv fs).cerr = [e])) := by
  have hp : parse_args stoiDec ["cpp_strassen", "abc"] = none := by decide
  have hm : (main stod stoiDec to_string sqrt algorithm elapsed ["cpp_strassen", "abc"]
      fs).status = .terminated := by
    simp only [main, hp]
  refine ⟨by decide, hp, hm, by rw [hm]; decide, ?_⟩
  intro stoi argv reps csv hargs
  rcases main_cases stod stoi to_string sqrt algorithm elapsed argv fs reps csv hargs with
    ⟨e, _, h⟩ | ⟨e, _, _, h⟩ | ⟨_, _, _, h⟩ | ⟨e, _, _, _, _, h⟩ | ⟨fs', _, _, _, _, h⟩
  · exact Or.inr (by rw [h]; exact ⟨rfl, _, rfl⟩)
  · exact Or.inr (by rw [h]; exact ⟨rfl, _, rfl⟩)
  · exact Or.inr (by rw [h]; exact ⟨rfl, _, rfl⟩)
  · exact Or.inr (by rw [h]; exact ⟨rfl, _, rfl⟩)
  · exact Or.inl (by rw [h]; exact ⟨rfl, rfl⟩)

/-- C16: for every repetition count `reps` and every sequence of measured times, a
successful driver run (exit code 0) has `reps ≥ 0` and hands the logger, in one call,
exactly `max(reps, 0)` result rows, the `i`-th (1-based) being
`("C++", algorithm tag, "1024", i, time_i)`, hands `compute_stats` the same times in
the same order, and leaves the files as that logger call made them; when a loader
fails, the logger is never called and the files are left untouched. -/
theorem main_logs_rows {α : Type} [LinearOrderedField α]
    (stod : List Char → Option α) (stoi : String → Option Int) (to_string : α → String)
    (sqrt : α → α) (algorithm : String) (elapsed : Nat → α) (argv : List String)
    (fs : FileSys) (reps : Int) (csv : String)
    (hargs : parse_args stoi argv = some (reps, csv)) :
    ((main stod stoi to_string sqrt algorithm elapsed argv fs).status = .exited 0 →
      0 ≤ reps ∧
      (main stod stoi to_string sqrt algorithm elapsed argv fs).logged
        = [(csv, (List.range reps.toNat).map (fun i =>
            (⟨"C++", algorithm, "1024", toString (i + 1), to_string (elapsed (i + 1))⟩
              : ResultRow)))] ∧
      ((List.range reps.toNat).map (fun i =>
          (⟨"C++", algorithm, "1024", toString (i + 1), to_string (elapsed (i + 1))⟩
            : ResultRow))).length = (max reps 0).toNat ∧
      (main stod stoi to_string sqrt algorithm elapsed argv fs).statsInput
        = [(List.range reps.toNat).map (fun i => elapsed (i + 1))] ∧
      (main stod stoi to_string sqrt algorithm elapsed argv fs).summary
        = some (compute_stats sqrt ((List.range reps.toNat).map (fun i => elapsed (i + 1)))) ∧
      append_results_csv fs csv ((List.range reps.toNat).map (fun i =>
          (⟨"C++", algorithm, "1024", toString (i + 1), to_string (elapsed (i + 1))⟩
            : ResultRow)))
        = .ok (main stod stoi to_string sqrt algorithm elapsed argv fs).fs) ∧
    (((∃ e, load_matrix_csv stod (fs.read "A_1024.csv") N = .error e) ∨
        (∃ e, load_matrix_csv stod (fs.read "B_1024.csv") N = .error e)) →
      (main stod stoi to_string sqrt algorithm elapsed argv fs).logged = [] ∧
      (main stod stoi to_string sqrt algorithm elapsed argv fs).fs = fs ∧
      (main stod stoi to_string sqrt algorithm elapsed argv fs).status = .exited 1) := by
  have hN : toString N = "1024" := by decide
  have hrep := repetitions_eq to_string algorithm elapsed reps
  simp only [LANGUAGE, hN] at hrep
  rcases main_cases stod stoi to_string sqrt algorithm elapsed argv fs reps csv hargs with
    ⟨e, hA, h⟩ | ⟨e, ⟨MA, hA⟩, hB, h⟩ | ⟨⟨MA, hA⟩, ⟨MB, hB⟩, hr, h⟩ |
    ⟨e, ⟨MA, hA⟩, ⟨MB, hB⟩, hr, hlog, h⟩ | ⟨fs', ⟨MA, hA⟩, ⟨MB, hB⟩, hr, hlog, h⟩
  · rw [h]
    exact ⟨fun hs => absurd hs (show ExitStatus.exited 1 ≠ ExitStatus.exited 0 by decide), fun _ => ⟨rfl, rfl, rfl⟩⟩
  · rw [h]
    exact ⟨fun hs => absurd hs (show ExitStatus.exited 1 ≠ ExitStatus.exited 0 by decide), fun _ => ⟨rfl, rfl, rfl⟩⟩
  · rw [h]
    refine ⟨fun hs => absurd hs (show ExitStatus.exited 1 ≠ ExitStatus.exited 0 by decide), ?_⟩
    rintro (⟨e, he⟩ | ⟨e, he⟩)
    · rw [hA] at he; cases he
    · rw [hB] at he; cases he
  · rw [h]
    refine ⟨fun hs => absurd hs (show ExitStatus.exited 1 ≠ ExitStatus.exited 0 by decide), ?_⟩
    rintro (⟨e, he⟩ | ⟨e, he⟩)
    · rw [hA] at he; cases he
    · rw [hB] at he; cases he
  · rw [h]
    rw [hrep] at hlog ⊢
    refine ⟨fun _ => ⟨hr, rfl, ?_, rfl, rfl, hlog⟩, ?_⟩
    · rw [List.length_map, List.length_range]
      omega
    · rintro (⟨e, he⟩ | ⟨e, he⟩)
      · rw [hA] at he; cases he
      · rw [hB] at he; cases he

/-- C16, applied to a run of the naive driver with two repetitions. -/
theorem main_logs_rows_witness :
    parse_args stoiDec ["cpp_naive", "2"] = some (2, "results_cpp.csv") ∧
    benchRun.status = .exited 0 ∧
    benchRun.logged
      = [("results_cpp.csv",
          [⟨"C++", "naive", "1024", "1", "0.100000"⟩,
           ⟨"C++", "naive", "1024", "2", "0.100000"⟩])] ∧
    benchRun.statsInput = [[1 / 10, 2 / 10]] := by
  have hargs : parse_args stoiDec ["cpp_naive", "2"] = some (2, "results_cpp.csv") := by
    decide
  have hrA : benchFiles.read "A_1024.csv" = some (onesFile N) := by simp [benchFiles]
  have hrB : benchFiles.read "B_1024.csv" = some (onesFile N) := by simp [benchFiles]
  obtain ⟨M, hM⟩ := load_onesFile N
  have hst : benchRun.status = .exited 0 := by
    unfold benchRun
    rw [main_ok stodRat stoiDec _ _ "naive" _ ["cpp_naive", "2"] benchFiles 2
      "results_cpp.csv" M M _ hargs (by rw [hrA]; exact hM) (by rw [hrB]; exact hM)
      (by decide) (append_results_csv_ok benchFiles "results_cpp.csv" _ rfl)]
  have h := (main_logs_rows stodRat stoiDec (fun _ => "0.100000") (fun x => x) "naive"
    (fun rep => (rep : ℚ) / 10) ["cpp_naive", "2"] benchFiles 2 "results_cpp.csv" hargs).1 hst
  refine ⟨hargs, hst, ?_, ?_⟩
  · have h2 := h.2.1
    unfold benchRun
    rw [h2]
    rfl
  · have h4 := h.2.2.2.1
    have e : (2 : Int).toNat = 2 := rfl
    unfold benchRun
    rw [h4, e]
    simp only [List.range_succ, List.range_zero, List.nil_append, List.map_cons,
      List.map_nil, List.cons_append]
    norm_num

end MM

/-! ## Summary statistics: order and spread -/

namespace MM

section StatsOrder

variable {α : Type} [LinearOrderedField α]

theorem le_mean_of_le (m : α) (v : List α) (hv : v ≠ []) (h : ∀ y ∈ v, m ≤ y) :
    m ≤ v.sum / (v.length : α) := by
  have hpos : (0 : α) < (v.length : α) := by
    have : 0 < v.length := List.length_pos.mpr hv
    exact_mod_cast this
  rw [le_div_iff₀ hpos]
  have := List.card_nsmul_le_sum v m h
  rw [nsmul_eq_mul] at this
  linarith

theorem mean_le_of_le (m : α) (v : List α) (hv : v ≠ []) (h : ∀ y ∈ v, y ≤ m) :
    v.sum / (v.length : α) ≤ m := by
  have hpos : (0 : α) < (v.length : α) := by
    have : 0 < v.length := List.length_pos.mpr hv
    exact_mod_cast this
  rw [div_le_iff₀ hpos]
  have := List.sum_le_card_nsmul v m h
  rw [nsmul_eq_mul] at this
  linarith

theorem sum_sq_eq_zero_iff (c : α) (l : List α) :
    (l.map (fun y => (y - c) * (y - c))).sum = 0 ↔ ∀ y ∈ l, y = c := by
  induction l with
  | nil => simp
  | cons a rest ih =>
    simp only [List.map_cons, List.sum_cons, List.mem_cons, forall_eq_or_imp]
    rw [add_eq_zero_iff_of_nonneg (mul_self_nonneg _) (sum_sq_nonneg c rest), ih]
    constructor
    · rintro ⟨h1, h2⟩
      exact ⟨sub_eq_zero.mp (mul_self_eq_zero.mp h1), h2⟩
    · rintro ⟨h1, h2⟩
      exact ⟨by rw [h1]; simp, h2⟩

theorem mean_eq_of_all_eq (c : α) (v : List α) (hv : v ≠ []) (h : ∀ y ∈ v, y = c) :
    v.sum / (v.length : α) = c := by
  have hpos : (v.length : α) ≠ 0 := by
    have : 0 < v.length := List.length_pos.mpr hv
    exact_mod_cast (Nat.pos_iff_ne_zero.mp this)
  rw [List.sum_eq_card_nsmul v c h, nsmul_eq_mul]
  field_simp

/-- The samples are all equal exactly when the squared deviations from their mean
sum to zero. -/
theorem all_eq_iff_sum_sq (v : List α) (hv : v ≠ []) :
    (v.map (fun y => (y - v.sum / (v.length : α)) * (y - v.sum / (v.length : α)))).sum = 0
      ↔ ∀ x ∈ v, ∀ y ∈ v, x = y := by
  rw [sum_sq_eq_zero_iff]
  constructor
  · intro h x hx y hy
    rw [h x hx, h y hy]
  · intro h y hy
    exact (mean_eq_of_all_eq y v hv (fun z hz => h z hz y hy)).symm

end StatsOrder

/-- C19: for every non-empty sequence of real samples the result of `compute_stats`
satisfies `min ≤ mean ≤ max`, and for every sequence of at least two samples `sd` is a
number with `sd ≥ 0`, and `sd = 0` if and only if all samples are equal. -/
theorem compute_stats_order (v : List ℝ) (hv : v ≠ []) :
    ∃ mn me mx, (compute_stats Real.sqrt v).min = some mn ∧
      (compute_stats Real.sqrt v).mean = some me ∧
      (compute_stats Real.sqrt v).max = some mx ∧ mn ≤ me ∧ me ≤ mx ∧
      (2 ≤ v.length →
        ∃ s, (compute_stats Real.sqrt v).sd = some s ∧ 0 ≤ s ∧
          (s = 0 ↔ ∀ x ∈ v, ∀ y ∈ v, x = y)) := by
  obtain ⟨x, xs, rfl⟩ := List.exists_cons_of_ne_nil hv
  rw [compute_stats_cons]
  refine ⟨_, _, _, rfl, rfl, rfl,
    le_mean_of_le _ _ hv (min_element_spec x xs).2,
    mean_le_of_le _ _ hv (max_element_spec x xs).2, ?_⟩
  intro h2
  have h1 : 1 < (x :: xs).length := h2
  have hq : 0 ≤ (List.map (fun y => (y - (x :: xs).sum / ((x :: xs).length : ℝ))
      * (y - (x :: xs).sum / ((x :: xs).length : ℝ))) (x :: xs)).sum
        / (((x :: xs).length - 1 : Nat) : ℝ) :=
    div_nonneg (sum_sq_nonneg _ _) (Nat.cast_nonneg _)
  have hden : (0 : ℝ) < (((x :: xs).length - 1 : Nat) : ℝ) := by
    have : 0 < (x :: xs).length - 1 := by omega
    exact_mod_cast this
  simp only [if_pos h1, sqrt_or_nan, if_neg (not_lt.mpr hq)]
  refine ⟨_, rfl, Real.sqrt_nonneg _, ?_⟩
  rw [Real.sqrt_eq_zero hq, div_eq_zero_iff, ← all_eq_iff_sum_sq (x :: xs) hv]
  constructor
  · rintro (h | h)
    · exact h
    · exact absurd h (ne_of_gt hden)
  · intro h
    exact Or.inl h

/-- C19, applied to the samples `[1, 2, 3]`. -/
theorem compute_stats_order_witness :
    ([1, 2, 3] : List ℝ) ≠ [] ∧ 2 ≤ ([1, 2, 3] : List ℝ).length ∧
    ∃ mn me mx s, (compute_stats Real.sqrt [1, 2, 3]).min = some mn ∧
      (compute_stats Real.sqrt [1, 2, 3]).mean = some me ∧
      (compute_stats Real.sqrt [1, 2, 3]).max = some mx ∧
      (compute_stats Real.sqrt [1, 2, 3]).sd = some s ∧
      mn ≤ me ∧ me ≤ mx ∧ 0 ≤ s := by
  obtain ⟨mn, me, mx, h1, h2, h3, h4, h5, h6⟩ := compute_stats_order [1, 2, 3] (by simp)
  obtain ⟨s, h7, h8, _⟩ := h6 (by simp)
  exact ⟨by simp, by simp, mn, me, mx, s, h1, h2, h3, h7, h4, h5, h8⟩

end MM
